import Mathlib

/-!
Verification development for the qr-song-card-gen repository.

Strings are modelled as lists of characters (`Str`); Python's machine
behaviour on strings (split, join, strip, replace) is embedded as
executable functions on `List Char`.  Fallible code paths (a `KeyError`
on a missing dict key, an unset loop variable used as a slice index, an
`int()` that would raise `ValueError`) are modelled with `Option`.
-/

set_option maxRecDepth 4000

abbrev Str := List Char

/-- Python's notion of whitespace characters, as used by `str.strip()`
(restricted to the ASCII whitespace that can occur in the repository's
data). -/
def isPySpace (c : Char) : Bool :=
  c = ' ' || c = '\t' || c = '\n' || c = '\r' || c = '\x0b' || c = '\x0c'

/-- `str.lstrip()`. -/
def lstrip (s : Str) : Str := s.dropWhile isPySpace

/-- `str.strip()`: drop leading and trailing whitespace. -/
def strip (s : Str) : Str := ((lstrip s).reverse.dropWhile isPySpace).reverse

/-- `str.startswith(p)` / list prefix test, written out to stay
self-contained. -/
def leadsWith : Str → Str → Bool
  | [], _ => true
  | _ :: _, [] => false
  | a :: as, b :: bs => a = b && leadsWith as bs

/-- `s.split(sep)` for a single-character separator, exactly Python's
semantics: empty fields are kept, `"".split(sep) = [""]`. -/
def splitOnChar (sep : Char) : Str → List Str
  | [] => [[]]
  | c :: cs =>
    if c = sep then [] :: splitOnChar sep cs
    else
      match splitOnChar sep cs with
      | [] => [[c]]
      | w :: ws => (c :: w) :: ws

/-- `" ".join(words)`. -/
def joinWords : List Str → Str
  | [] => []
  | w :: ws =>
    match ws with
    | [] => w
    | _ :: _ => w ++ ' ' :: joinWords ws

/-- Does the pattern `p` occur as a contiguous substring of `s`?
(Executable; used to state when `str.replace` is a no-op.) -/
def occursIn (p : Str) : Str → Bool
  | [] => leadsWith p []
  | c :: cs => leadsWith p (c :: cs) || occursIn p cs

/-- Python's `s.replace(p, "")`: drop the leftmost occurrence of `p`
and continue after it.  `skip` counts the characters of a matched
occurrence still to be consumed, so the recursion is structural on the
string. -/
def replaceAllGo (p : Str) : Nat → Str → Str
  | _, [] => []
  | n + 1, _ :: cs => replaceAllGo p n cs
  | 0, c :: cs =>
    if leadsWith p (c :: cs) then replaceAllGo p (p.length - 1) cs
    else c :: replaceAllGo p 0 cs

/-- `s.replace(p, "")`.  Python leaves `s` unchanged when the pattern is
empty and the replacement is empty, which the guard reproduces. -/
def replaceAll (p : Str) (s : Str) : Str :=
  match p with
  | [] => s
  | _ :: _ => replaceAllGo p 0 s

/-- `clean_string` from fetch_track_metadata.py, restricted to the
literal (plain string) patterns; each pattern is removed everywhere and
the result is stripped before the next pattern is applied.  (The regex
patterns of the source are outside this embedding.) -/
def cleanString (s : Str) (patterns : List Str) : Str :=
  patterns.foldl (fun acc p => strip (replaceAll p acc)) s

/-- `sum(len(word) for word in words)` from line_break_text. -/
def charCount (ws : List Str) : Nat := (ws.map List.length).sum

/-- `abs(len(t) - len(b))` on natural number lengths. -/
def natAbsDiff (a b : Nat) : Nat := max a b - min a b

/-- The candidate two-line split of `line_break_text` after the first
`i` words: `w1, w2 = words[:i], words[i:]; t, b = " ".join(w1),
" ".join(w2); d = abs(len(t) - len(b))`. -/
def candSplit (ws : List Str) (i : Nat) : Str × Str × Nat :=
  let t := joinWords (ws.take i)
  let b := joinWords (ws.drop i)
  (t, b, natAbsDiff t.length b.length)

/-- One iteration of the `for i in range(1, len(words) - 1)` loop:
`if d < diff: top, bot, diff = t, b, d`. -/
def pickStep (ws : List Str) (best : Str × Str × Nat) (i : Nat) : Str × Str × Nat :=
  if (candSplit ws i).2.2 < best.2.2 then candSplit ws i else best

/-- The two-line branch of `line_break_text` (make_qr_cards.py lines
89-105): start from everything on the first line with `diff`
initialised to the summed word lengths, try a break before word `i` for
`i in range(1, len(words) - 1)`, keep the first strict improvement. -/
def twoLineBalance (ws : List Str) : List Str :=
  let init : Str × Str × Nat := (joinWords ws, [], charCount ws)
  let r := (List.range' 1 (ws.length - 2)).foldl (pickStep ws) init
  [r.1, r.2.1]

/-- The greedy accumulation loop of the three-line branch
(make_qr_cards.py lines 77-83): starting from `first_two_lines = ""`,
stop at the first word `i` with `len(first_two_lines + word) >= 48`,
otherwise append `word + " "`.  Returns the accumulated string together
with `first_third_line_word_index` (`none` models Python's `None`). -/
def greedyGo : List Str → Nat → Str → Str × Option Nat
  | [], _, acc => (acc, none)
  | w :: ws, i, acc =>
    if 48 ≤ (acc ++ w).length then (acc, some i)
    else greedyGo ws (i + 1) (acc ++ w ++ [' '])

theorem greedyGo_fst_length_le :
    ∀ (ws : List Str) (i : Nat) (acc : Str), acc.length ≤ 48 →
      (greedyGo ws i acc).1.length ≤ 48 := by
  intro ws
  induction ws with
  | nil => intro i acc h; simpa [greedyGo] using h
  | cons w ws ih =>
    intro i acc h
    rw [greedyGo]
    by_cases hc : 48 ≤ (acc ++ w).length
    · rw [if_pos hc]; exact h
    · rw [if_neg hc]
      apply ih
      simp only [List.length_append] at hc ⊢
      simp only [List.length_cons, List.length_nil]
      omega

theorem dropWhile_length_le (p : Char → Bool) :
    ∀ s : Str, (s.dropWhile p).length ≤ s.length := by
  intro s
  induction s with
  | nil => simp
  | cons c cs ih =>
    by_cases h : p c
    · rw [List.dropWhile_cons_of_pos h]
      simp only [List.length_cons]
      omega
    · rw [List.dropWhile_cons_of_neg (by simpa using h)]

theorem lstrip_length_le (s : Str) : (lstrip s).length ≤ s.length :=
  dropWhile_length_le isPySpace s

theorem strip_length_le (s : Str) : (strip s).length ≤ s.length := by
  have h1 := lstrip_length_le s
  have h2 := dropWhile_length_le isPySpace (lstrip s).reverse
  simp only [strip, List.length_reverse] at h2 ⊢
  omega

/-- `line_break_text` from make_qr_cards.py (lines 65-105), modelled
over `List Char`.  The result is `none` exactly when the Python code
would raise (slicing `words[None:]` when the greedy loop never broke);
otherwise `some` of the produced lines. -/
def line_break_text (s : Str) : Option (List Str) :=
  if s.length < 24 then some [s]
  else
    let words := splitOnChar ' ' s
    if 48 < s.length then
      let r := greedyGo words 0 []
      match r.2 with
      | none => none
      | some k =>
        match line_break_text (strip r.1) with
        | none => none
        | some ls => some (ls ++ [joinWords (words.drop k)])
    else
      some (twoLineBalance words)
termination_by s.length
decreasing_by
  have h0 := greedyGo_fst_length_le words 0 [] (by simp)
  have h2 := strip_length_le (greedyGo words 0 []).1
  simp only [r, words] at h0 h2 ⊢
  omega

/-- A calendar date (stands in for Python's `datetime.date`; the store's
ISO date strings are modelled as already parsed). -/
structure SimpleDate where
  year : Nat
  month : Nat
  day : Nat
deriving DecidableEq

/-- The `Track` NamedTuple of make_qr_cards.py. -/
structure Track where
  release_date : SimpleDate
  title : Str
  artist : Str
  album : Str
  album_track : Int
  track_url : Str
  album_url : Str
  artist_url : Str
  set : Str
  set_index : Int
deriving DecidableEq

def Track.release_year (t : Track) : Nat := t.release_date.year

/-- The `Table` NamedTuple: an ordered list of cards plus the fixed
3-column, 4-row grid geometry. -/
structure Table where
  cells : List Track
  width : Nat := 3
  height : Nat := 4
deriving DecidableEq

/-- `Table.new()`. -/
def Table.new : Table := { cells := [] }

/-- `Table.is_empty`. -/
def Table.is_empty (t : Table) : Bool := t.cells.length == 0

/-- `Table.is_full`: `len(self.cells) >= self.width * self.height`. -/
def Table.is_full (t : Table) : Bool := decide (t.width * t.height ≤ t.cells.length)

/-- Grid cell of card `i` in code (`"qr"`) mode (render_svg lines
234-235): `ix = self.width - 1 - (i % self.width); iy = i //
self.width`. -/
def Table.cellIndexQr (t : Table) (i : Nat) : Nat × Nat :=
  (t.width - 1 - i % t.width, i / t.width)

/-- Grid cell of card `i` in title mode (render_svg lines 247-248):
`ix = i % self.width; iy = i // self.width`. -/
def Table.cellIndexTitle (t : Table) (i : Nat) : Nat × Nat :=
  (i % t.width, i / t.width)

/-- The pagination loop of `main` (make_qr_cards.py lines 485-496):
append each track to the current table; once it `is_full`, push it and
open a fresh `Table.new()`; after the loop, push the final table when
it is not empty. -/
def paginateGo : Table → List Track → List Table
  | table, [] => if table.is_empty then [] else [table]
  | table, tr :: rest =>
    let table2 : Table := { table with cells := table.cells ++ [tr] }
    if table2.is_full then table2 :: paginateGo Table.new rest
    else paginateGo table2 rest

def paginate (tracks : List Track) : List Table := paginateGo Table.new tracks

/-- A stored track record, as persisted in the JSON database
(`track_db["tracks"][track_id]`).  `set` models the singular legacy
`"set"` key: `clean_track_data` in fetch_track_metadata.py deletes it
from every record it writes, so `none` is the shape the pipeline itself
produces; a `Option`-valued field read with `track["set"]` raising
`KeyError` is modelled by the consumer returning `none`. -/
structure TrackData where
  set : Option Str
  sets : List (Str × Int)
  release_date : SimpleDate
  title_clean : Str
  title_override : Option Str
  artist : Str
  artist_override : Option Str
  album_clean : Str
  album_override : Option Str
  album_track : Int
  track_url : Str
  album_url : Str
  artist_url : Str
deriving DecidableEq

/-- `track.get("title_override", track["title_clean"])`. -/
def TrackData.displayTitle (r : TrackData) : Str := r.title_override.getD r.title_clean

/-- `track.get("artist_override", track["artist"])`. -/
def TrackData.displayArtist (r : TrackData) : Str := r.artist_override.getD r.artist

/-- `exclude_track_data[key] |= vals` on the association-list model of
the `defaultdict(set)`: accessing the key creates it even when `vals`
is empty. -/
def indexUpsert (key : Str × Str) (vals : List Str) :
    List ((Str × Str) × List Str) → List ((Str × Str) × List Str)
  | [] => [(key, vals)]
  | (k, v) :: rest =>
    if k = key then (k, v ++ vals.filter (fun x => decide (x ∉ v))) :: rest
    else (k, v) :: indexUpsert key vals rest

/-- `exclude_track_data.get((title, artist))`. -/
def lookupIndex (index : List ((Str × Str) × List Str)) (key : Str × Str) :
    Option (List Str) :=
  (index.find? (fun e => decide (e.1 = key))).map (fun e => e.2)

/-- The body of the fuzzy-index loop (make_qr_cards.py lines 403-412)
over the database records in iteration order.  `track["set"]` on a
record without the key raises `KeyError`, modelled as `none`. -/
def buildIndexGo (skip : List Str) :
    List TrackData → List ((Str × Str) × List Str) →
      Option (List ((Str × Str) × List Str))
  | [], acc => some acc
  | r :: rs, acc =>
    match r.set with
    | none => none
    | some s0 =>
      if s0 ∈ skip then
        buildIndexGo skip rs
          (indexUpsert (r.displayTitle, r.displayArtist)
            (skip.filter (fun x => decide (x ∈ r.sets.map Prod.fst))) acc)
      else
        buildIndexGo skip rs acc

/-- `main`'s fuzzy-match preparation (make_qr_cards.py lines 400-412):
the index is only built when `fuzzy_track_dupes` is on and
`skip_if_set` is nonempty. -/
def buildIndex (fuzzy : Bool) (skip : List Str) (records : List TrackData) :
    Option (List ((Str × Str) × List Str)) :=
  if fuzzy && decide (0 < skip.length) then buildIndexGo skip records []
  else some []

/-- `track_metadata.get(track_id)` over the association-list database. -/
def lookupRec (db : List (Str × TrackData)) (id : Str) : Option TrackData :=
  (db.find? (fun p => decide (p.1 = id))).map (fun p => p.2)

/-- Python `or` on an optional string: `None` and `""` are falsy. -/
def pyOrStr (a : Option Str) (b : Str) : Str :=
  match a with
  | none => b
  | some s => if s = [] then b else s

/-- Parse digits, most significant first; any non-digit fails. -/
def parseDigitsGo : Str → Nat → Option Nat
  | [], acc => some acc
  | c :: cs, acc =>
    if c.isDigit then parseDigitsGo cs (acc * 10 + (c.toNat - 48)) else none

/-- Python `int(token)` on a string: optional sign and nonempty digit
run after stripping whitespace; anything else raises `ValueError`,
modelled as `none`. -/
def pyIntOpt (s : Str) : Option Int :=
  match strip s with
  | [] => none
  | '-' :: rest =>
    if rest = [] then none else (parseDigitsGo rest 0).map (fun n => -(n : Int))
  | '+' :: rest =>
    if rest = [] then none else (parseDigitsGo rest 0).map (fun n => (n : Int))
  | t => (parseDigitsGo t 0).map (fun n => (n : Int))

/-- Outcome of one iteration of `main`'s per-line loop in
make_qr_cards.py (lines 416-469), up to and including the fuzzy
duplicate check (the offset and limit counters act after it). -/
inductive LineOutcome where
  | skippedBlank
  | intParseError
  | skippedSetFilter
  | dbMissing
  | skippedExactDup (conflicts : List Str)
  | skippedFuzzyDup (conflicts : List Str)
  | accepted (t : Track)
deriving DecidableEq

/-- One iteration of the render-path loop of make_qr_cards.py `main`
(lines 416-469): blank/comment skip, `;`-token parse, set filter,
database lookup (`exit(2)` on a missing id), exact dedup check against
the candidate's own `sets`, `Track` construction, fuzzy dedup lookup. -/
def processLine (set_name set_alias : Option Str) (skip : List Str)
    (index : List ((Str × Str) × List Str)) (db : List (Str × TrackData))
    (idx : Nat) (line : Str) : LineOutcome :=
  if strip line = [] || leadsWith ['#'] line then .skippedBlank
  else
    let tokens := splitOnChar ';' line
    let track_id := tokens.headD []
    let track_set := tokens.get? 1
    let track_index : Option Int :=
      match tokens.get? 2 with
      | some tok => pyIntOpt tok
      | none => some (idx : Int)
    match track_index with
    | none => .intParseError
    | some tIdx =>
      if set_name.isSome && decide (track_set ≠ set_name) then .skippedSetFilter
      else
        match lookupRec db track_id with
        | none => .dbMissing
        | some r =>
          let other_sets := (r.sets.map Prod.fst).filter (fun sid => decide (sid ∈ skip))
          if decide (0 < skip.length) && decide (other_sets ≠ []) then
            .skippedExactDup other_sets
          else
            let t : Track :=
              { release_date := r.release_date,
                title := r.displayTitle,
                artist := r.displayArtist,
                album := r.album_override.getD r.album_clean,
                album_track := r.album_track,
                track_url := r.track_url,
                album_url := r.album_url,
                artist_url := r.artist_url,
                set := pyOrStr set_alias (pyOrStr track_set []),
                set_index := tIdx }
            match lookupIndex index (t.title, t.artist) with
            | some conflicts => .skippedFuzzyDup conflicts
            | none => .accepted t

/-- `track_set` resolution of fetch_track_metadata.py `main` (lines
375-379): the `--set-id-override` value wins, else the line's own
second token, else the `--set-id` default. -/
def resolveTrackSet (override dflt tok : Option Str) : Option Str :=
  if override.isSome then override
  else if tok.isSome then tok
  else dflt

/-- Observable events of the fetch loop; `saved` is a
`save_track_db` call made inside the loop after fetching a new track. -/
inductive FetchEvent where
  | saved (id : Str) (set : Str)
  | skippedExisting (id : Str)
  | fetchFailed (id : Str)
  | reprocessMissing (id : Str)
deriving DecidableEq

/-- The per-line loop of fetch_track_metadata.py `main` (lines
369-431), modelled for set-id resolution, the fatal `exit(1)` paths,
and database writes.  Arguments: CLI set-id override and default,
reprocess mode, `--force-reload`, an oracle `fetchOk` for whether the
remote fetch of an id eventually yields metadata (`False` = the
"could not be fetched" skip), then the ids already in the database, the
running `enumerate` index and the remaining lines.  Returns the events
in order, `some code` when the process exits early (`exit(1)` on an
unresolved set id, an uncaught exception in reprocess mode, or a
`ValueError` from `int(tokens[2])`), and the final set of stored ids. -/
def fetchLoop (override dflt : Option Str) (reprocess force_reload : Bool)
    (fetchOk : Str → Bool) :
    List Str → Nat → List Str → List FetchEvent × Option Nat × List Str
  | db, _, [] => ([], none, db)
  | db, idx, line :: rest =>
    if strip line = [] || leadsWith ['#'] line then
      fetchLoop override dflt reprocess force_reload fetchOk db (idx + 1) rest
    else
      let tokens := splitOnChar ';' line
      let track_id := tokens.headD []
      let track_set := resolveTrackSet override dflt (tokens.get? 1)
      let track_index : Option Int :=
        match tokens.get? 2 with
        | some tok => pyIntOpt tok
        | none => some ((idx : Int) + 1)
      match track_index with
      | none => ([], some 1, db)
      | some _ =>
        if track_set.isNone && !reprocess then ([], some 1, db)
        else if decide (track_id ∈ db) && !force_reload then
          let r := fetchLoop override dflt reprocess force_reload fetchOk db (idx + 1) rest
          (.skippedExisting track_id :: r.1, r.2.1, r.2.2)
        else if reprocess then
          ([.reprocessMissing track_id], some 1, db)
        else if fetchOk track_id then
          let db2 := if track_id ∈ db then db else db ++ [track_id]
          let r := fetchLoop override dflt reprocess force_reload fetchOk db2 (idx + 1) rest
          (.saved track_id (track_set.getD []) :: r.1, r.2.1, r.2.2)
        else
          let r := fetchLoop override dflt reprocess force_reload fetchOk db (idx + 1) rest
          (.fetchFailed track_id :: r.1, r.2.1, r.2.2)

/-! ### Lemmas about split, join and strip -/

theorem splitOnChar_ne_nil (sep : Char) (s : Str) : splitOnChar sep s ≠ [] := by
  induction s with
  | nil => simp [splitOnChar]
  | cons c cs ih =>
    rw [splitOnChar]
    by_cases h : c = sep
    · simp [h]
    · rw [if_neg h]
      cases hsp : splitOnChar sep cs with
      | nil => exact absurd hsp ih
      | cons w ws => simp

theorem joinWords_cons (w : Str) (ws : List Str) (h : ws ≠ []) :
    joinWords (w :: ws) = w ++ ' ' :: joinWords ws := by
  cases ws with
  | nil => exact absurd rfl h
  | cons x xs => rfl

theorem joinWords_splitOnChar (s : Str) : joinWords (splitOnChar ' ' s) = s := by
  induction s with
  | nil => rfl
  | cons c cs ih =>
    rw [splitOnChar]
    by_cases h : c = ' '
    · rw [if_pos h, joinWords_cons [] _ (splitOnChar_ne_nil ' ' cs), ih, h]
      rfl
    · rw [if_neg h]
      cases hsp : splitOnChar ' ' cs with
      | nil => exact absurd hsp (splitOnChar_ne_nil ' ' cs)
      | cons w ws =>
        rw [hsp] at ih
        cases ws with
        | nil => simpa [joinWords] using congrArg (fun t => c :: t) ih
        | cons y ys =>
          rw [joinWords_cons w (y :: ys) (by simp)] at ih
          rw [joinWords_cons (c :: w) (y :: ys) (by simp)]
          rw [List.cons_append, ih]

theorem splitOnChar_mem_no_sep (sep : Char) (s : Str) :
    ∀ w ∈ splitOnChar sep s, sep ∉ w := by
  induction s with
  | nil => intro w hw; simp [splitOnChar] at hw; simp [hw]
  | cons c cs ih =>
    intro w hw
    rw [splitOnChar] at hw
    by_cases h : c = sep
    · rw [if_pos h] at hw
      rcases List.mem_cons.mp hw with hw | hw
      · simp [hw]
      · exact ih w hw
    · rw [if_neg h] at hw
      cases hsp : splitOnChar sep cs with
      | nil => exact absurd hsp (splitOnChar_ne_nil sep cs)
      | cons v vs =>
        rw [hsp] at hw
        have hv : sep ∉ v := ih v (by rw [hsp]; exact List.mem_cons_self v vs)
        rcases List.mem_cons.mp hw with hw | hw
        · subst hw
          intro hmem
          rcases List.mem_cons.mp hmem with hmem | hmem
          · exact h hmem.symm
          · exact hv hmem
        · exact ih w (by rw [hsp]; exact List.mem_cons_of_mem v hw)

theorem splitOnChar_of_no_sep (sep : Char) (w : Str) (hw : sep ∉ w) :
    splitOnChar sep w = [w] := by
  induction w with
  | nil => rfl
  | cons c cs ih =>
    rw [splitOnChar, if_neg (by intro hc; exact hw (by simp [hc]))]
    rw [ih (by intro hm; exact hw (List.mem_cons_of_mem c hm))]

theorem splitOnChar_word_append (sep : Char) (w r : Str) (hw : sep ∉ w) :
    splitOnChar sep (w ++ sep :: r) = w :: splitOnChar sep r := by
  induction w with
  | nil => simp [splitOnChar]
  | cons c cs ih =>
    have hc : c ≠ sep := by intro hc; exact hw (by simp [hc])
    rw [List.cons_append, splitOnChar, if_neg hc,
      ih (by intro hm; exact hw (List.mem_cons_of_mem c hm))]

theorem splitOnChar_joinWords (ws : List Str) (h : ws ≠ [])
    (hw : ∀ w ∈ ws, ' ' ∉ w) :
    splitOnChar ' ' (joinWords ws) = ws := by
  induction ws with
  | nil => exact absurd rfl h
  | cons w vs ih =>
    cases vs with
    | nil => exact splitOnChar_of_no_sep ' ' w (hw w (by simp))
    | cons y ys =>
      rw [joinWords_cons w _ (by simp),
        splitOnChar_word_append ' ' w _ (hw w (by simp)),
        ih (by simp) (fun v hv => hw v (List.mem_cons_of_mem w hv))]

theorem joinWords_take_drop (ws : List Str) (i : Nat) (h1 : 1 ≤ i)
    (h2 : i < ws.length) :
    joinWords (ws.take i) ++ ' ' :: joinWords (ws.drop i) = joinWords ws := by
  induction ws generalizing i with
  | nil => simp at h2
  | cons w rest ih =>
    match i, h1 with
    | 1, _ =>
      have hrest : rest ≠ [] := by
        intro hr; rw [hr] at h2; simp at h2
      simp only [List.take_succ_cons, List.take_zero, List.drop_succ_cons,
        List.drop_zero]
      rw [joinWords_cons w rest hrest]
      rfl
    | (i' + 2), _ =>
      have hi1 : 1 ≤ i' + 1 := by omega
      have hi2 : i' + 1 < rest.length := by
        simp only [List.length_cons] at h2
        omega
      have hrest : rest ≠ [] := by
        intro hr; rw [hr] at hi2; simp at hi2
      have htk : rest.take (i' + 1) ≠ [] := by
        rw [Ne, List.take_eq_nil_iff]
        push_neg
        exact ⟨by omega, hrest⟩
      simp only [List.take_succ_cons, List.drop_succ_cons]
      rw [joinWords_cons w _ htk, joinWords_cons w rest hrest]
      have := ih (i' + 1) hi1 hi2
      simp only [List.cons_append, List.append_assoc] at *
      rw [this]

/-- The accumulated `first_two_lines` string after `k` words: every
word followed by a single space. -/
def flatWords (ws : List Str) : Str := (ws.map (fun w => w ++ [' '])).flatten

theorem flatWords_nil : flatWords [] = [] := rfl

theorem flatWords_cons (w : Str) (ws : List Str) :
    flatWords (w :: ws) = w ++ ' ' :: flatWords ws := by
  simp [flatWords]

theorem flatWords_eq_joinWords_append (ws : List Str) (h : ws ≠ []) :
    flatWords ws = joinWords ws ++ [' '] := by
  induction ws with
  | nil => exact absurd rfl h
  | cons w vs ih =>
    cases vs with
    | nil => simp [flatWords, joinWords]
    | cons y ys =>
      rw [flatWords_cons, ih (by simp), joinWords_cons w (y :: ys) (by simp)]
      simp

theorem joinWords_head_decomp (ws : List Str) (h : ws ≠ []) :
    ∃ t, joinWords ws = ws.headD [] ++ t := by
  cases ws with
  | nil => exact absurd rfl h
  | cons w vs =>
    cases vs with
    | nil => exact ⟨[], by simp [joinWords]⟩
    | cons y ys => exact ⟨' ' :: joinWords (y :: ys), joinWords_cons w (y :: ys) (by simp)⟩

theorem joinWords_last_decomp (ws : List Str) (h : ws ≠ []) :
    ∃ t, joinWords ws = t ++ ws.getLastD [] := by
  induction ws with
  | nil => exact absurd rfl h
  | cons w vs ih =>
    cases vs with
    | nil => exact ⟨[], by simp [joinWords]⟩
    | cons y ys =>
      obtain ⟨t, ht⟩ := ih (by simp)
      refine ⟨w ++ ' ' :: t, ?_⟩
      rw [joinWords_cons w (y :: ys) (by simp), ht]
      simp

theorem lstrip_cons_of_not_space (c : Char) (cs : Str) (h : isPySpace c = false) :
    lstrip (c :: cs) = c :: cs := by
  simp [lstrip, List.dropWhile_cons, h]

theorem dropWhile_space_cons_space (cs : Str) :
    List.dropWhile isPySpace (' ' :: cs) = List.dropWhile isPySpace cs := by
  rw [List.dropWhile_cons_of_pos]
  decide

/-- A string whose first and last characters are not whitespace is
fixed by `strip`. -/
theorem strip_of_clean_ends (c : Char) (t : Str) (d : Char) (u : Str)
    (hcd : c :: t = u ++ [d] ∨ (t = [] ∧ c = d))
    (hc : isPySpace c = false) (hd : isPySpace d = false) :
    strip (c :: t) = c :: t := by
  rw [strip, lstrip_cons_of_not_space c t hc]
  rcases hcd with hcd | hcd
  · rw [hcd, List.reverse_append]
    simp only [List.reverse_cons, List.reverse_nil, List.nil_append,
      List.singleton_append]
    rw [List.dropWhile_cons_of_neg (by simp [hd])]
    simp [← hcd]
  · rcases hcd with ⟨ht, hcd2⟩
    subst ht
    simp only [List.reverse_cons, List.reverse_nil, List.nil_append]
    rw [List.dropWhile_cons_of_neg (by simp [hc])]
    simp

theorem strip_nil : strip [] = [] := rfl

/-- If the greedy loop never breaks out, every check failed; in
particular the final check on the last word, whose accumulated length
is the length of the whole (re)joined string. -/
theorem greedyGo_none_bound :
    ∀ (ws : List Str) (i : Nat) (acc : Str), ws ≠ [] →
      (greedyGo ws i acc).2 = none →
      acc.length + (joinWords ws).length < 48 := by
  intro ws
  induction ws with
  | nil => intro i acc h; exact absurd rfl h
  | cons w vs ih =>
    intro i acc _ hnone
    rw [greedyGo] at hnone
    by_cases hc : 48 ≤ (acc ++ w).length
    · rw [if_pos hc] at hnone; simp at hnone
    · rw [if_neg hc] at hnone
      cases vs with
      | nil =>
        simp only [List.length_append] at hc
        simpa [joinWords] using Nat.lt_of_not_le hc
      | cons y ys =>
        have h2 := ih (i + 1) (acc ++ w ++ [' ']) (by simp) hnone
        rw [joinWords_cons w (y :: ys) (by simp)]
        simp only [List.length_append, List.length_cons, List.length_nil] at h2 ⊢
        omega

/-- Characterisation of a greedy break: the loop stops at the least
index whose accumulated check reaches 48, and returns the accumulation
of the words before it. -/
theorem greedyGo_break :
    ∀ (ws : List Str) (i : Nat) (acc : Str) (m : Nat),
      (greedyGo ws i acc).2 = some m →
      ∃ k, m = i + k ∧ k < ws.length ∧
        (greedyGo ws i acc).1 = acc ++ flatWords (ws.take k) ∧
        48 ≤ (acc ++ flatWords (ws.take k) ++ ws.getD k []).length ∧
        ∀ j < k, (acc ++ flatWords (ws.take j) ++ ws.getD j []).length < 48 := by
  intro ws
  induction ws with
  | nil => intro i acc m h; simp [greedyGo] at h
  | cons w vs ih =>
    intro i acc m hsome
    rw [greedyGo] at hsome
    by_cases hc : 48 ≤ (acc ++ w).length
    · rw [if_pos hc] at hsome
      replace hsome : i = m := by simpa using hsome
      refine ⟨0, by omega, by simp, ?_, ?_, by omega⟩
      · rw [greedyGo, if_pos hc]
        simp [flatWords]
      · simpa [flatWords] using hc
    · rw [if_neg hc] at hsome
      obtain ⟨k, hk1, hk2, hk3, hk4, hk5⟩ := ih (i + 1) (acc ++ w ++ [' ']) m hsome
      refine ⟨k + 1, by omega, by simpa using hk2, ?_, ?_, ?_⟩
      · rw [greedyGo, if_neg hc, hk3, List.take_succ_cons, flatWords_cons]
        simp
      · rw [List.take_succ_cons, flatWords_cons]
        simp only [List.getD_cons_succ]
        simp only [List.append_assoc] at hk4 ⊢
        simpa using hk4
      · intro j hj
        cases j with
        | zero =>
          simp only [List.take_zero, flatWords_nil, List.append_nil,
            List.getD_cons_zero]
          exact Nat.lt_of_not_le hc
        | succ j' =>
          have := hk5 j' (by omega)
          rw [List.take_succ_cons, flatWords_cons]
          simp only [List.getD_cons_succ]
          simp only [List.append_assoc] at this ⊢
          simpa using this

/-- Behaviour of `line_break_text` below and at the 48-character
threshold: a short string is one line, otherwise the two-line
balancer runs; no recursion happens. -/
theorem line_break_text_short (t : Str) (h : t.length ≤ 48) :
    (t.length < 24 → line_break_text t = some [t]) ∧
    (24 ≤ t.length → line_break_text t = some (twoLineBalance (splitOnChar ' ' t))) := by
  constructor
  · intro h24
    rw [line_break_text.eq_def, if_pos h24]
  · intro h24
    rw [line_break_text.eq_def, if_neg (by omega)]
    simp only
    rw [if_neg (by omega)]

/-- Unfolding of `line_break_text` above the 48-character threshold. -/
theorem line_break_text_long (s : Str) (h48 : 48 < s.length) :
    line_break_text s =
      match (greedyGo (splitOnChar ' ' s) 0 []).2 with
      | none => none
      | some k =>
        match line_break_text (strip (greedyGo (splitOnChar ' ' s) 0 []).1) with
        | none => none
        | some ls => some (ls ++ [joinWords ((splitOnChar ' ' s).drop k)]) := by
  rw [line_break_text.eq_def, if_neg (by omega)]
  simp only
  rw [if_pos h48]

/-- For an input over 48 characters the greedy loop always breaks
(`first_third_line_word_index` is never `None`): were it `None`, the
final check would bound the whole string's length below 48. -/
theorem greedy_some_of_long (s : Str) (h48 : 48 < s.length) :
    ∃ m, (greedyGo (splitOnChar ' ' s) 0 []).2 = some m := by
  cases hg : (greedyGo (splitOnChar ' ' s) 0 []).2 with
  | none =>
    have hb := greedyGo_none_bound (splitOnChar ' ' s) 0 []
      (splitOnChar_ne_nil ' ' s) hg
    rw [joinWords_splitOnChar] at hb
    simp only [List.length_nil] at hb
    omega
  | some m => exact ⟨m, rfl⟩

/-! ### The strict-improvement fold of the two-line balancer -/

theorem foldl_pickStep_id (ws : List Str) :
    ∀ (l : List Nat) (best : Str × Str × Nat),
      (∀ i ∈ l, ¬((candSplit ws i).2.2 < best.2.2)) →
      l.foldl (pickStep ws) best = best := by
  intro l
  induction l with
  | nil => intro best _; rfl
  | cons x xs ih =>
    intro best h
    rw [List.foldl_cons, pickStep, if_neg (h x (by simp))]
    exact ih best (fun i hi => h i (List.mem_cons_of_mem x hi))

theorem foldl_pickStep_mem (ws : List Str) :
    ∀ (l : List Nat) (best : Str × Str × Nat),
      l.foldl (pickStep ws) best = best ∨
        ∃ i ∈ l, l.foldl (pickStep ws) best = candSplit ws i := by
  intro l
  induction l with
  | nil => intro best; exact Or.inl rfl
  | cons x xs ih =>
    intro best
    rw [List.foldl_cons, pickStep]
    by_cases hc : (candSplit ws x).2.2 < best.2.2
    · rw [if_pos hc]
      rcases ih (candSplit ws x) with h | ⟨i, hi, h⟩
      · exact Or.inr ⟨x, by simp, h⟩
      · exact Or.inr ⟨i, List.mem_cons_of_mem x hi, h⟩
    · rw [if_neg hc]
      rcases ih best with h | ⟨i, hi, h⟩
      · exact Or.inl h
      · exact Or.inr ⟨i, List.mem_cons_of_mem x hi, h⟩

theorem foldl_pickStep_diff_le (ws : List Str) :
    ∀ (l : List Nat) (best : Str × Str × Nat),
      (l.foldl (pickStep ws) best).2.2 ≤ best.2.2 ∧
        ∀ i ∈ l, (l.foldl (pickStep ws) best).2.2 ≤ (candSplit ws i).2.2 := by
  intro l
  induction l with
  | nil => intro best; exact ⟨Nat.le_refl _, by simp⟩
  | cons x xs ih =>
    intro best
    rw [List.foldl_cons, pickStep]
    by_cases hc : (candSplit ws x).2.2 < best.2.2
    · rw [if_pos hc]
      obtain ⟨h1, h2⟩ := ih (candSplit ws x)
      refine ⟨by omega, ?_⟩
      intro i hi
      rcases List.mem_cons.mp hi with hi | hi
      · subst hi; exact h1
      · exact h2 i hi
    · rw [if_neg hc]
      obtain ⟨h1, h2⟩ := ih best
      refine ⟨h1, ?_⟩
      intro i hi
      rcases List.mem_cons.mp hi with hi | hi
      · subst hi; omega
      · exact h2 i hi

theorem foldl_pickStep_argmin (ws : List Str) :
    ∀ (l : List Nat) (best : Str × Str × Nat), l.Pairwise (· < ·) →
      (∃ i ∈ l, (candSplit ws i).2.2 < best.2.2) →
      ∃ i ∈ l, l.foldl (pickStep ws) best = candSplit ws i ∧
        (candSplit ws i).2.2 < best.2.2 ∧
        (∀ j ∈ l, (candSplit ws i).2.2 ≤ (candSplit ws j).2.2) ∧
        (∀ j ∈ l, j < i → (candSplit ws i).2.2 < (candSplit ws j).2.2) := by
  intro l
  induction l with
  | nil => intro best _ h; simp at h
  | cons x xs ih =>
    intro best hpw himp
    have hpw2 := (List.pairwise_cons.mp hpw).2
    have hxlt := (List.pairwise_cons.mp hpw).1
    by_cases hc : (candSplit ws x).2.2 < best.2.2
    · rw [List.foldl_cons, pickStep, if_pos hc]
      by_cases h2 : ∃ j ∈ xs, (candSplit ws j).2.2 < (candSplit ws x).2.2
      · obtain ⟨i, hi, hfold, hlt, hmin, hearliest⟩ := ih (candSplit ws x) hpw2 h2
        refine ⟨i, List.mem_cons_of_mem x hi, hfold, by omega, ?_, ?_⟩
        · intro j hj
          rcases List.mem_cons.mp hj with hj | hj
          · subst hj; omega
          · exact hmin j hj
        · intro j hj hji
          rcases List.mem_cons.mp hj with hj | hj
          · subst hj; omega
          · exact hearliest j hj hji
      · push_neg at h2
        have hid := foldl_pickStep_id ws xs (candSplit ws x)
          (fun j hj => by have := h2 j hj; omega)
        refine ⟨x, by simp, hid, hc, ?_, ?_⟩
        · intro j hj
          rcases List.mem_cons.mp hj with hj | hj
          · subst hj; exact Nat.le_refl _
          · exact h2 j hj
        · intro j hj hji
          rcases List.mem_cons.mp hj with hj | hj
          · subst hj; omega
          · exact absurd hji (by have := hxlt j hj; omega)
    · rw [List.foldl_cons, pickStep, if_neg hc]
      have h2 : ∃ j ∈ xs, (candSplit ws j).2.2 < best.2.2 := by
        obtain ⟨j, hj, hjlt⟩ := himp
        rcases List.mem_cons.mp hj with hj | hj
        · subst hj; omega
        · exact ⟨j, hj, hjlt⟩
      obtain ⟨i, hi, hfold, hlt, hmin, hearliest⟩ := ih best hpw2 h2
      refine ⟨i, List.mem_cons_of_mem x hi, hfold, hlt, ?_, ?_⟩
      · intro j hj
        rcases List.mem_cons.mp hj with hj | hj
        · subst hj; omega
        · exact hmin j hj
      · intro j hj hji
        rcases List.mem_cons.mp hj with hj | hj
        · subst hj; omega
        · exact hearliest j hj hji

theorem twoLineBalance_length (ws : List Str) : (twoLineBalance ws).length = 2 := by
  simp [twoLineBalance]

/-- A 48-character two-word string (23 a's, a space, 24 b's). -/
def sampleLen48 : Str := List.replicate 23 'a' ++ ' ' :: List.replicate 24 'b'

/-- A 49-character two-word string (20 a's, a space, 28 b's). -/
def sampleLen49 : Str := List.replicate 20 'a' ++ ' ' :: List.replicate 28 'b'

/-- C10: `line_break_text` is total.  For every input over 48
characters the greedy loop finds a third-line start index before
exhausting the word list (the `None`-initialised index is never `None`
when used), the stripped prefix passed to the recursive call is at most
48 characters long (so the recursion depth is at most one), and the
function returns between 1 and 3 lines for every string. -/
theorem claim_C10 (s : Str) :
    (48 < s.length →
      (greedyGo (splitOnChar ' ' s) 0 []).2 ≠ none ∧
      (strip (greedyGo (splitOnChar ' ' s) 0 []).1).length ≤ 48) ∧
    ∃ ls, line_break_text s = some ls ∧ 1 ≤ ls.length ∧ ls.length ≤ 3 := by
  have hfstle : (strip (greedyGo (splitOnChar ' ' s) 0 []).1).length ≤ 48 :=
    le_trans (strip_length_le _) (greedyGo_fst_length_le _ 0 [] (by simp))
  constructor
  · intro h48
    obtain ⟨m, hm⟩ := greedy_some_of_long s h48
    exact ⟨by rw [hm]; simp, hfstle⟩
  · by_cases h48 : 48 < s.length
    · obtain ⟨m, hm⟩ := greedy_some_of_long s h48
      have hshort := line_break_text_short _ hfstle
      rw [line_break_text_long s h48, hm]
      by_cases h24 : (strip (greedyGo (splitOnChar ' ' s) 0 []).1).length < 24
      · rw [hshort.1 h24]
        exact ⟨_, rfl, by simp, by simp⟩
      · rw [hshort.2 (by omega)]
        refine ⟨_, rfl, by simp, ?_⟩
        simp [twoLineBalance_length]
    · have hshort := line_break_text_short s (by omega)
      by_cases h24 : s.length < 24
      · rw [hshort.1 h24]
        exact ⟨[s], rfl, by simp, by simp⟩
      · rw [hshort.2 (by omega)]
        refine ⟨_, rfl, ?_, ?_⟩ <;> simp [twoLineBalance_length]

theorem claim_C10_witness :
    ((greedyGo (splitOnChar ' ' sampleLen49) 0 []).2 ≠ none ∧
      (strip (greedyGo (splitOnChar ' ' sampleLen49) 0 []).1).length ≤ 48) ∧
    ∃ ls, line_break_text sampleLen49 = some ls ∧ 1 ≤ ls.length ∧ ls.length ≤ 3 :=
  ⟨(claim_C10 sampleLen49).1 (by decide), (claim_C10 sampleLen49).2⟩

/-- C3 counterexample: the claim says every string of length at least
48 is split into three lines by the greedy three-line branch.  The code
tests `len(s) > 48` strictly, so a 48-character string goes to the
two-line balancer instead ([s, ""] here), and even above 48 characters
the result has only two lines whenever the accumulated prefix is
shorter than 24 characters. -/
theorem claim_C3_counterexample :
    sampleLen48.length = 48 ∧
    line_break_text sampleLen48 = some [sampleLen48, []] ∧
    Option.map List.length (line_break_text sampleLen48) = some 2 ∧
    sampleLen49.length = 49 ∧
    line_break_text sampleLen49 =
      some [List.replicate 20 'a', List.replicate 28 'b'] ∧
    Option.map List.length (line_break_text sampleLen49) = some 2 := by
  have h48 : line_break_text sampleLen48 = some [sampleLen48, []] := by
    rw [line_break_text.eq_def]
    decide
  have h49 : line_break_text sampleLen49 =
      some [List.replicate 20 'a', List.replicate 28 'b'] := by
    have hinner : line_break_text (List.replicate 20 'a') =
        some [List.replicate 20 'a'] := by
      rw [line_break_text.eq_def]
      decide
    rw [line_break_text.eq_def]
    norm_num
    have hg : greedyGo (splitOnChar ' ' sampleLen49) 0 []
        = (List.replicate 20 'a' ++ [' '], some 1) := by decide
    rw [hg]
    have hs : strip (List.replicate 20 'a' ++ [' ']) = List.replicate 20 'a' := by
      decide
    simp only [hs, hinner]
    decide
  exact ⟨by decide, h48, by rw [h48]; rfl, by decide, h49, by rw [h49]; rfl⟩

/-- C3 (amended): strings under 24 characters are one line.  Strings
strictly longer than 48 characters (not: at or above 48, which go to
the two-line balancer) are split by greedily accumulating whole words,
each followed by its separating space, stopping at the first word whose
appendage would reach 48 accumulated characters; the words from that
one on become the final line, and `line_break_text` is applied
recursively to the stripped accumulated prefix — yielding three lines
when that prefix is at least 24 characters long and two lines when it
is shorter. -/
theorem claim_C3 (s : Str) (words : List Str) (hw : words = splitOnChar ' ' s) :
    (s.length < 24 → line_break_text s = some [s]) ∧
    (48 < s.length →
      ∃ k pre,
        k < words.length ∧
        48 ≤ (flatWords (words.take k)).length + (words.getD k []).length ∧
        (∀ j < k, (flatWords (words.take j)).length + (words.getD j []).length < 48) ∧
        line_break_text (strip (flatWords (words.take k))) = some pre ∧
        line_break_text s = some (pre ++ [joinWords (words.drop k)]) ∧
        ((strip (flatWords (words.take k))).length < 24 →
          pre = [strip (flatWords (words.take k))]) ∧
        (24 ≤ (strip (flatWords (words.take k))).length → pre.length = 2)) := by
  subst hw
  constructor
  · intro h24
    exact (line_break_text_short s (by omega)).1 h24
  · intro h48
    obtain ⟨m, hm⟩ := greedy_some_of_long s h48
    obtain ⟨k, hk0, hk1, hk3, hk4, hk5⟩ := greedyGo_break (splitOnChar ' ' s) 0 [] m hm
    have hmk : m = k := by omega
    subst hmk
    have hfl : (greedyGo (splitOnChar ' ' s) 0 []).1 =
        flatWords ((splitOnChar ' ' s).take m) := by
      simpa using hk3
    have hpre_le : (strip (flatWords ((splitOnChar ' ' s).take m))).length ≤ 48 := by
      have h1 := greedyGo_fst_length_le (splitOnChar ' ' s) 0 [] (by simp)
      rw [hfl] at h1
      exact le_trans (strip_length_le _) h1
    have hshort := line_break_text_short _ hpre_le
    have hlong := line_break_text_long s h48
    rw [hm, hfl] at hlong
    simp only [List.nil_append] at hk4 hk5
    by_cases h24p : (strip (flatWords ((splitOnChar ' ' s).take m))).length < 24
    · refine ⟨m, [strip (flatWords ((splitOnChar ' ' s).take m))], hk1,
        by simpa [List.length_append] using hk4,
        (fun j hj => by simpa [List.length_append] using hk5 j hj),
        hshort.1 h24p, ?_, fun _ => rfl, by omega⟩
      rw [hlong, hshort.1 h24p]
    · refine ⟨m, twoLineBalance (splitOnChar ' '
          (strip (flatWords ((splitOnChar ' ' s).take m)))), hk1,
        by simpa [List.length_append] using hk4,
        (fun j hj => by simpa [List.length_append] using hk5 j hj),
        hshort.2 (by omega), ?_, fun hlt => absurd hlt (by omega),
        fun _ => twoLineBalance_length _⟩
      rw [hlong, hshort.2 (by omega)]

theorem claim_C3_witness :
    ∃ k pre,
      k < (splitOnChar ' ' sampleLen49).length ∧
      48 ≤ (flatWords ((splitOnChar ' ' sampleLen49).take k)).length +
        ((splitOnChar ' ' sampleLen49).getD k []).length ∧
      (∀ j < k, (flatWords ((splitOnChar ' ' sampleLen49).take j)).length +
        ((splitOnChar ' ' sampleLen49).getD j []).length < 48) ∧
      line_break_text (strip (flatWords ((splitOnChar ' ' sampleLen49).take k)))
        = some pre ∧
      line_break_text sampleLen49 =
        some (pre ++ [joinWords ((splitOnChar ' ' sampleLen49).drop k)]) ∧
      ((strip (flatWords ((splitOnChar ' ' sampleLen49).take k))).length < 24 →
        pre = [strip (flatWords ((splitOnChar ' ' sampleLen49).take k))]) ∧
      (24 ≤ (strip (flatWords ((splitOnChar ' ' sampleLen49).take k))).length →
        pre.length = 2) :=
  (claim_C3 sampleLen49 (splitOnChar ' ' sampleLen49) rfl).2 (by decide)

/-- A single 24-character word. -/
def sampleOneWord : Str := List.replicate 24 'a'

/-- `"aa bb "` followed by thirty c's: 36 characters, three words, with
the best balanced break just before the last word. -/
def sampleSkewed : Str := ("aa bb ").toList ++ List.replicate 30 'c'

/-- C4 counterexample.  A one-word string in range returns `[s, ""]` —
two lines with an empty second line, not a single line.  And the loop
`for i in range(1, len(words) - 1)` never considers the split isolating
the last word: on `sampleSkewed` the code keeps the break after the
first word (difference 31) although breaking before the last word gives
difference 25. -/
theorem claim_C4_counterexample :
    (splitOnChar ' ' sampleOneWord).length = 1 ∧
    line_break_text sampleOneWord = some [sampleOneWord, []] ∧
    Option.map List.length (line_break_text sampleOneWord) = some 2 ∧
    24 ≤ sampleSkewed.length ∧ sampleSkewed.length ≤ 47 ∧
    line_break_text sampleSkewed =
      some [("aa").toList, ("bb ").toList ++ List.replicate 30 'c'] ∧
    natAbsDiff (("aa").toList).length ((("bb ").toList ++ List.replicate 30 'c')).length = 31 ∧
    (candSplit (splitOnChar ' ' sampleSkewed) 2).1 = ("aa bb").toList ∧
    (candSplit (splitOnChar ' ' sampleSkewed) 2).2.1 = List.replicate 30 'c' ∧
    (candSplit (splitOnChar ' ' sampleSkewed) 2).2.2 = 25 ∧
    (candSplit (splitOnChar ' ' sampleSkewed) 2).2.2 <
      natAbsDiff (("aa").toList).length ((("bb ").toList ++ List.replicate 30 'c')).length := by
  have h1 : line_break_text sampleOneWord = some [sampleOneWord, []] := by
    rw [line_break_text.eq_def]
    decide
  have h2 : line_break_text sampleSkewed =
      some [("aa").toList, ("bb ").toList ++ List.replicate 30 'c'] := by
    rw [line_break_text.eq_def]
    decide
  refine ⟨by decide, h1, by rw [h1]; rfl, by decide, by decide, h2, ?_, ?_, ?_, ?_, ?_⟩
    <;> decide

/-- C4 (amended): for a string of 24 to 47 characters the balancer
starts from the whole string as first line and empty second line, with
the recorded difference initialised to the summed word lengths (spaces
excluded), and tries only the breaks after word `i` for
`i ∈ {1, …, n−2}` — the break isolating the last word is never tried.
It adopts a tried break only when its line-length difference strictly
beats the best so far, so it returns the earliest tried break attaining
the minimum difference when one beats the initial value, and otherwise
(including every string of fewer than 3 words) returns `[s, ""]`.  A
line break never falls inside a word. -/
theorem claim_C4 (s : Str) (words : List Str) (hw : words = splitOnChar ' ' s)
    (h24 : 24 ≤ s.length) (h47 : s.length ≤ 47) :
    ∃ t b, line_break_text s = some [t, b] ∧
      ((t = s ∧ b = []) ∨
        ∃ i, 1 ≤ i ∧ i ≤ words.length - 2 ∧
          t = joinWords (words.take i) ∧ b = joinWords (words.drop i)) ∧
      (words.length ≤ 2 → t = s ∧ b = []) ∧
      ((∀ i, 1 ≤ i → i ≤ words.length - 2 →
          charCount words ≤ (candSplit words i).2.2) → t = s ∧ b = []) ∧
      ((∃ i, 1 ≤ i ∧ i ≤ words.length - 2 ∧
          (candSplit words i).2.2 < charCount words) →
        ∃ i, 1 ≤ i ∧ i ≤ words.length - 2 ∧
          t = (candSplit words i).1 ∧ b = (candSplit words i).2.1 ∧
          (candSplit words i).2.2 < charCount words ∧
          (∀ j, 1 ≤ j → j ≤ words.length - 2 →
            (candSplit words i).2.2 ≤ (candSplit words j).2.2) ∧
          (∀ j, 1 ≤ j → j ≤ words.length - 2 → j < i →
            (candSplit words i).2.2 < (candSplit words j).2.2)) := by
  subst hw
  have hjoin : joinWords (splitOnChar ' ' s) = s := joinWords_splitOnChar s
  have hlbt : line_break_text s = some (twoLineBalance (splitOnChar ' ' s)) :=
    (line_break_text_short s (by omega)).2 h24
  have hmem : ∀ i, i ∈ List.range' 1 ((splitOnChar ' ' s).length - 2) ↔
      1 ≤ i ∧ i ≤ (splitOnChar ' ' s).length - 2 := by
    intro i
    rw [List.mem_range'_1]
    omega
  set words := splitOnChar ' ' s with hwdef
  set init : Str × Str × Nat := (joinWords words, [], charCount words) with hinit
  set R := (List.range' 1 (words.length - 2)).foldl (pickStep words) init with hR
  have htlb : twoLineBalance words = [R.1, R.2.1] := rfl
  refine ⟨R.1, R.2.1, by rw [hlbt, htlb], ?_, ?_, ?_, ?_⟩
  · rcases foldl_pickStep_mem words (List.range' 1 (words.length - 2)) init with h | ⟨i, hi, h⟩
    · rw [← hR] at h
      rw [h, hinit, hjoin]
      exact Or.inl ⟨rfl, rfl⟩
    · rw [← hR] at h
      refine Or.inr ⟨i, ((hmem i).mp hi).1, ((hmem i).mp hi).2, ?_, ?_⟩ <;>
        rw [h] <;> rfl
  · intro hn
    have h0 : words.length - 2 = 0 := by omega
    rw [hR, h0]
    simp only [List.range']
    rw [List.foldl_nil, hinit, hjoin]
    exact ⟨rfl, rfl⟩
  · intro hno
    have h := foldl_pickStep_id words (List.range' 1 (words.length - 2)) init
      (fun i hi => by
        have hb := (hmem i).mp hi
        have := hno i hb.1 hb.2
        rw [hinit]
        simp only
        omega)
    rw [← hR] at h
    rw [h, hinit, hjoin]
    exact ⟨rfl, rfl⟩
  · intro himp
    obtain ⟨i0, hi01, hi02, hi03⟩ := himp
    have hargs := foldl_pickStep_argmin words (List.range' 1 (words.length - 2)) init
      (List.pairwise_lt_range' 1 _)
      ⟨i0, (hmem i0).mpr ⟨hi01, hi02⟩, by rw [hinit]; simpa using hi03⟩
    obtain ⟨i, hi, hfold, hlt, hmin, hearliest⟩ := hargs
    rw [← hR] at hfold
    refine ⟨i, ((hmem i).mp hi).1, ((hmem i).mp hi).2,
      by rw [hfold], by rw [hfold],
      by rw [hinit] at hlt; simpa using hlt,
      fun j hj1 hj2 => hmin j ((hmem j).mpr ⟨hj1, hj2⟩),
      fun j hj1 hj2 hji => hearliest j ((hmem j).mpr ⟨hj1, hj2⟩) hji⟩

theorem claim_C4_witness :
    ∃ t b, line_break_text sampleSkewed = some [t, b] ∧
      ((t = sampleSkewed ∧ b = []) ∨
        ∃ i, 1 ≤ i ∧ i ≤ (splitOnChar ' ' sampleSkewed).length - 2 ∧
          t = joinWords ((splitOnChar ' ' sampleSkewed).take i) ∧
          b = joinWords ((splitOnChar ' ' sampleSkewed).drop i)) ∧
      ((splitOnChar ' ' sampleSkewed).length ≤ 2 → t = sampleSkewed ∧ b = []) ∧
      ((∀ i, 1 ≤ i → i ≤ (splitOnChar ' ' sampleSkewed).length - 2 →
          charCount (splitOnChar ' ' sampleSkewed) ≤
            (candSplit (splitOnChar ' ' sampleSkewed) i).2.2) →
        t = sampleSkewed ∧ b = []) ∧
      ((∃ i, 1 ≤ i ∧ i ≤ (splitOnChar ' ' sampleSkewed).length - 2 ∧
          (candSplit (splitOnChar ' ' sampleSkewed) i).2.2 <
            charCount (splitOnChar ' ' sampleSkewed)) →
        ∃ i, 1 ≤ i ∧ i ≤ (splitOnChar ' ' sampleSkewed).length - 2 ∧
          t = (candSplit (splitOnChar ' ' sampleSkewed) i).1 ∧
          b = (candSplit (splitOnChar ' ' sampleSkewed) i).2.1 ∧
          (candSplit (splitOnChar ' ' sampleSkewed) i).2.2 <
            charCount (splitOnChar ' ' sampleSkewed) ∧
          (∀ j, 1 ≤ j → j ≤ (splitOnChar ' ' sampleSkewed).length - 2 →
            (candSplit (splitOnChar ' ' sampleSkewed) i).2.2 ≤
              (candSplit (splitOnChar ' ' sampleSkewed) j).2.2) ∧
          (∀ j, 1 ≤ j → j ≤ (splitOnChar ' ' sampleSkewed).length - 2 → j < i →
            (candSplit (splitOnChar ' ' sampleSkewed) i).2.2 <
              (candSplit (splitOnChar ' ' sampleSkewed) j).2.2)) :=
  claim_C4 sampleSkewed (splitOnChar ' ' sampleSkewed) rfl (by decide) (by decide)

theorem joinWords_head_clean (ws : List Str) (hne : ws ≠ [])
    (hwne : ∀ w ∈ ws, w ≠ []) (hcl : ∀ w ∈ ws, ∀ c ∈ w, isPySpace c = false) :
    ∃ c t, joinWords ws = c :: t ∧ isPySpace c = false := by
  cases ws with
  | nil => exact absurd rfl hne
  | cons w rest =>
    obtain ⟨t0, ht0⟩ := joinWords_head_decomp (w :: rest) (by simp)
    cases hwc : w with
    | nil => exact absurd hwc (hwne w (by simp))
    | cons c w2 =>
      subst hwc
      refine ⟨c, w2 ++ t0, ?_, hcl (c :: w2) (by simp) c (by simp)⟩
      rw [ht0]
      simp

theorem joinWords_concat_clean (ws : List Str) (hne : ws ≠ [])
    (hwne : ∀ w ∈ ws, w ≠ []) (hcl : ∀ w ∈ ws, ∀ c ∈ w, isPySpace c = false) :
    ∃ u d, joinWords ws = u ++ [d] ∧ isPySpace d = false := by
  induction ws with
  | nil => exact absurd rfl hne
  | cons w rest ih =>
    cases rest with
    | nil =>
      rcases List.eq_nil_or_concat w with hw | ⟨u, d, hw⟩
      · exact absurd hw (hwne w (by simp))
      · refine ⟨u, d, by simp [joinWords, hw], ?_⟩
        exact hcl w (by simp) d (by rw [hw]; simp)
    | cons y ys =>
      obtain ⟨u, d, hu, hd⟩ := ih (by simp)
        (fun v hv => hwne v (List.mem_cons_of_mem w hv))
        (fun v hv => hcl v (List.mem_cons_of_mem w hv))
      refine ⟨w ++ ' ' :: u, d, ?_, hd⟩
      rw [joinWords_cons w (y :: ys) (by simp), hu]
      simp

theorem joinWords_ne_nil_clean (ws : List Str) (hne : ws ≠ [])
    (hwne : ∀ w ∈ ws, w ≠ []) (hcl : ∀ w ∈ ws, ∀ c ∈ w, isPySpace c = false) :
    joinWords ws ≠ [] := by
  obtain ⟨c, t, h, _⟩ := joinWords_head_clean ws hne hwne hcl
  rw [h]
  simp

theorem strip_append_space (c : Char) (t : Str) (u : Str) (d : Char)
    (hdecomp : c :: t = u ++ [d]) (hc : isPySpace c = false)
    (hd : isPySpace d = false) :
    strip ((c :: t) ++ [' ']) = c :: t := by
  have h1 : lstrip ((c :: t) ++ [' ']) = (c :: t) ++ [' '] := by
    rw [List.cons_append]
    exact lstrip_cons_of_not_space c (t ++ [' ']) hc
  have hrev : ((c :: t) ++ [' ']).reverse = ' ' :: (d :: u.reverse) := by
    rw [hdecomp, List.reverse_append, List.reverse_append]
    simp
  rw [strip, h1, hrev, dropWhile_space_cons_space,
    List.dropWhile_cons_of_neg (by simp [hd])]
  rw [hdecomp]
  simp

theorem strip_flatWords_clean (ws : List Str) (hne : ws ≠ [])
    (hwne : ∀ w ∈ ws, w ≠ []) (hcl : ∀ w ∈ ws, ∀ c ∈ w, isPySpace c = false) :
    strip (flatWords ws) = joinWords ws := by
  obtain ⟨c, t, hct, hc⟩ := joinWords_head_clean ws hne hwne hcl
  obtain ⟨u, d, hud, hd⟩ := joinWords_concat_clean ws hne hwne hcl
  rw [flatWords_eq_joinWords_append ws hne, hct]
  exact strip_append_space c t u d (by rw [← hct, hud]) hc hd

theorem strip_joinWords_clean (ws : List Str) (hne : ws ≠ [])
    (hwne : ∀ w ∈ ws, w ≠ []) (hcl : ∀ w ∈ ws, ∀ c ∈ w, isPySpace c = false) :
    strip (joinWords ws) = joinWords ws := by
  obtain ⟨c, t, hct, hc⟩ := joinWords_head_clean ws hne hwne hcl
  obtain ⟨u, d, hud, hd⟩ := joinWords_concat_clean ws hne hwne hcl
  rw [hct]
  exact strip_of_clean_ends c t d u (Or.inl (by rw [← hct, hud])) hc hd

theorem joinWords_append_singleton (A : List Str) (y : Str) (h : A ≠ []) :
    joinWords (A ++ [y]) = joinWords A ++ ' ' :: y := by
  induction A with
  | nil => exact absurd rfl h
  | cons a A ih =>
    cases A with
    | nil => rfl
    | cons b B =>
      rw [List.cons_append, joinWords_cons a ((b :: B) ++ [y]) (by simp),
        ih (by simp), joinWords_cons a (b :: B) (by simp)]
      simp

theorem twoLineBalance_join_filter (ws : List Str) (hne : ws ≠ [])
    (hwne : ∀ w ∈ ws, w ≠ []) (hcl : ∀ w ∈ ws, ∀ c ∈ w, isPySpace c = false) :
    joinWords ((twoLineBalance ws).filter (fun l => decide (l ≠ []))) =
      joinWords ws := by
  have hjne : joinWords ws ≠ [] := joinWords_ne_nil_clean ws hne hwne hcl
  set init : Str × Str × Nat := (joinWords ws, [], charCount ws) with hinit
  set R := (List.range' 1 (ws.length - 2)).foldl (pickStep ws) init with hR
  have htlb : twoLineBalance ws = [R.1, R.2.1] := rfl
  rcases foldl_pickStep_mem ws (List.range' 1 (ws.length - 2)) init with h | ⟨i, hi, h⟩
  · rw [← hR] at h
    rw [htlb, h, hinit]
    simp [hjne, joinWords]
  · rw [← hR] at h
    obtain ⟨hi1, hi2⟩ := List.mem_range'_1.mp hi
    have hilt : i < ws.length := by omega
    have htkne : ws.take i ≠ [] := by
      rw [Ne, List.take_eq_nil_iff]
      push_neg
      exact ⟨by omega, hne⟩
    have hdrne : ws.drop i ≠ [] := by
      rw [Ne, List.drop_eq_nil_iff]
      omega
    have ht_ne : joinWords (ws.take i) ≠ [] :=
      joinWords_ne_nil_clean _ htkne
        (fun w hw => hwne w (List.mem_of_mem_take hw))
        (fun w hw => hcl w (List.mem_of_mem_take hw))
    have hb_ne : joinWords (ws.drop i) ≠ [] :=
      joinWords_ne_nil_clean _ hdrne
        (fun w hw => hwne w (List.mem_of_mem_drop hw))
        (fun w hw => hcl w (List.mem_of_mem_drop hw))
    have hcand1 : (candSplit ws i).1 = joinWords (ws.take i) := rfl
    have hcand2 : (candSplit ws i).2.1 = joinWords (ws.drop i) := rfl
    rw [htlb, h, hcand1, hcand2]
    have hfilter : ([joinWords (ws.take i), joinWords (ws.drop i)] : List Str).filter
        (fun l => decide (l ≠ [])) = [joinWords (ws.take i), joinWords (ws.drop i)] := by
      simp [ht_ne, hb_ne]
    rw [hfilter]
    have : joinWords [joinWords (ws.take i), joinWords (ws.drop i)] =
        joinWords (ws.take i) ++ ' ' :: joinWords (ws.drop i) := rfl
    rw [this, joinWords_take_drop ws i hi1 hilt]

/-- A 24-character two-word string (12 a's, a space, 11 b's). -/
def sampleTwoWords : Str := List.replicate 12 'a' ++ ' ' :: List.replicate 11 'b'

/-- 50 characters with a doubled space: `"aa"`, two spaces, 46 b's. -/
def sampleDoubleSpace : Str := ("aa ").toList ++ ' ' :: List.replicate 46 'b'

/-- 49 characters whose first word starts with a tab. -/
def sampleTabWord : Str := '\t' :: List.replicate 19 'a' ++ ' ' :: List.replicate 28 'b'

/-- C5 counterexample: joining the fitted lines with single spaces does
not reproduce the input.  For a 24-character two-word string the
balancer returns `[s, ""]` and the join appends a stray trailing space;
with a doubled space or a tab inside the input, characters are dropped
by the greedy branch's `strip`, so even ignoring empty lines the join
differs from the input. -/
theorem claim_C5_counterexample :
    (splitOnChar ' ' sampleTwoWords).length = 2 ∧
    line_break_text sampleTwoWords = some [sampleTwoWords, []] ∧
    joinWords [sampleTwoWords, []] = sampleTwoWords ++ [' '] ∧
    joinWords [sampleTwoWords, []] ≠ sampleTwoWords ∧
    2 ≤ (splitOnChar ' ' sampleDoubleSpace).length ∧
    line_break_text sampleDoubleSpace =
      some [("aa").toList, List.replicate 46 'b'] ∧
    joinWords ((([("aa").toList, List.replicate 46 'b'] : List Str)).filter
      (fun l => decide (l ≠ []))) ≠ sampleDoubleSpace ∧
    2 ≤ (splitOnChar ' ' sampleTabWord).length ∧
    line_break_text sampleTabWord =
      some [List.replicate 19 'a', List.replicate 28 'b'] ∧
    joinWords ((([List.replicate 19 'a', List.replicate 28 'b'] : List Str)).filter
      (fun l => decide (l ≠ []))) ≠ sampleTabWord := by
  have h1 : line_break_text sampleTwoWords = some [sampleTwoWords, []] := by
    rw [line_break_text.eq_def]
    decide
  have h2 : line_break_text sampleDoubleSpace =
      some [("aa").toList, List.replicate 46 'b'] := by
    have hinner : line_break_text ("aa").toList = some [("aa").toList] := by
      rw [line_break_text.eq_def]
      decide
    rw [line_break_text.eq_def]
    norm_num
    have hg : greedyGo (splitOnChar ' ' sampleDoubleSpace) 0 []
        = (("aa  ").toList, some 2) := by decide
    rw [hg]
    have hs : strip ("aa  ").toList = ("aa").toList := by decide
    simp only [hs, hinner]
    decide
  have h3 : line_break_text sampleTabWord =
      some [List.replicate 19 'a', List.replicate 28 'b'] := by
    have hinner : line_break_text (List.replicate 19 'a') =
        some [List.replicate 19 'a'] := by
      rw [line_break_text.eq_def]
      decide
    rw [line_break_text.eq_def]
    norm_num
    have hg : greedyGo (splitOnChar ' ' sampleTabWord) 0 []
        = ('\t' :: List.replicate 19 'a' ++ [' '], some 1) := by decide
    rw [hg]
    have hs : strip ('\t' :: List.replicate 19 'a' ++ [' '])
        = List.replicate 19 'a' := by decide
    simp only [hs, hinner]
    decide
  exact ⟨by decide, h1, by decide, by decide, by decide, h2, by decide,
    by decide, h3, by decide⟩


/-- C5 (amended): for an input of at least 2 words, all nonempty and
free of whitespace characters (so no doubled, leading or trailing
separators and no tabs inside words), concatenating the NONEMPTY fitted
lines with single spaces reproduces the original string.  In general
the fitter can emit an empty line — the two-line balancer's empty
bottom line — which makes the raw concatenation differ by stray
separators, and whitespace other than the single separating spaces can
be dropped by the greedy branch's strip. -/
theorem claim_C5 (s : Str) (words : List Str) (hw : words = splitOnChar ' ' s)
    (hlen : 2 ≤ words.length)
    (hwne : ∀ w ∈ words, w ≠ [])
    (hcl : ∀ w ∈ words, ∀ c ∈ w, isPySpace c = false) :
    ∃ ls, line_break_text s = some ls ∧
      joinWords (ls.filter (fun l => decide (l ≠ []))) = s := by
  subst hw
  set words := splitOnChar ' ' s with hwdef
  have hjoin : joinWords words = s := joinWords_splitOnChar s
  have hne : words ≠ [] := splitOnChar_ne_nil ' ' s
  have hsne : s ≠ [] := by
    intro h0
    rw [hwdef, h0] at hlen
    revert hlen
    decide
  by_cases h24 : s.length < 24
  · refine ⟨[s], (line_break_text_short s (by omega)).1 h24, ?_⟩
    simp [hsne, joinWords]
  · by_cases h48 : 48 < s.length
    · obtain ⟨m, hm⟩ := greedy_some_of_long s h48
      obtain ⟨k, hk0, hk1, hk3, -, -⟩ := greedyGo_break words 0 [] m hm
      have hmk : m = k := by omega
      subst hmk
      have hfl : (greedyGo words 0 []).1 = flatWords (words.take m) := by
        simpa using hk3
      have hlong := line_break_text_long s h48
      rw [← hwdef, hm, hfl] at hlong
      have hdropne : words.drop m ≠ [] := by
        rw [Ne, List.drop_eq_nil_iff]
        omega
      have hjd_ne : joinWords (words.drop m) ≠ [] :=
        joinWords_ne_nil_clean _ hdropne
          (fun w hww => hwne w (List.mem_of_mem_drop hww))
          (fun w hww => hcl w (List.mem_of_mem_drop hww))
      cases Nat.eq_zero_or_pos m with
      | inl hm0 =>
        subst hm0
        have h0 : strip (flatWords (words.take 0)) = [] := rfl
        have hinner : line_break_text [] = some [[]] :=
          (line_break_text_short [] (by simp)).1 (by simp)
        rw [h0, hinner] at hlong
        refine ⟨[[]] ++ [joinWords (words.drop 0)], hlong, ?_⟩
        have hdrop0 : words.drop 0 = words := List.drop_zero words
        rw [hdrop0, hjoin]
        simp [hsne, joinWords]
      | inr hmpos =>
        have htkne : words.take m ≠ [] := by
          rw [Ne, List.take_eq_nil_iff]
          push_neg
          exact ⟨by omega, hne⟩
        have htwne : ∀ w ∈ words.take m, w ≠ [] :=
          fun w hww => hwne w (List.mem_of_mem_take hww)
        have htcl : ∀ w ∈ words.take m, ∀ c ∈ w, isPySpace c = false :=
          fun w hww => hcl w (List.mem_of_mem_take hww)
        have hpre : strip (flatWords (words.take m)) = joinWords (words.take m) :=
          strip_flatWords_clean _ htkne htwne htcl
        have hflatle : (flatWords (words.take m)).length ≤ 48 := by
          have h1 := greedyGo_fst_length_le words 0 [] (by simp)
          rw [hfl] at h1
          exact h1
        have hprele : (joinWords (words.take m)).length ≤ 48 := by
          rw [← hpre]
          exact le_trans (strip_length_le _) hflatle
        rw [hpre] at hlong
        have hjt_ne : joinWords (words.take m) ≠ [] :=
          joinWords_ne_nil_clean _ htkne htwne htcl
        by_cases h24p : (joinWords (words.take m)).length < 24
        · have hinner : line_break_text (joinWords (words.take m)) =
              some [joinWords (words.take m)] :=
            (line_break_text_short _ (by omega)).1 h24p
          rw [hinner] at hlong
          refine ⟨[joinWords (words.take m)] ++ [joinWords (words.drop m)],
            hlong, ?_⟩
          have hfilter : (([joinWords (words.take m)] ++
              [joinWords (words.drop m)] : List Str)).filter
                (fun l => decide (l ≠ [])) =
              [joinWords (words.take m), joinWords (words.drop m)] := by
            simp [hjt_ne, hjd_ne]
          rw [hfilter]
          have hj2 : joinWords [joinWords (words.take m), joinWords (words.drop m)] =
              joinWords (words.take m) ++ ' ' :: joinWords (words.drop m) := rfl
          rw [hj2, joinWords_take_drop words m (by omega) hk1, hjoin]
        · have hsplitpre : splitOnChar ' ' (joinWords (words.take m)) =
              words.take m :=
            splitOnChar_joinWords _ htkne
              (fun w hww => splitOnChar_mem_no_sep ' ' s w
                (by rw [← hwdef]; exact List.mem_of_mem_take hww))
          have hinner : line_break_text (joinWords (words.take m)) =
              some (twoLineBalance (words.take m)) := by
            have h2 := (line_break_text_short _ hprele).2 (by omega)
            rw [hsplitpre] at h2
            exact h2
          rw [hinner] at hlong
          refine ⟨twoLineBalance (words.take m) ++ [joinWords (words.drop m)],
            hlong, ?_⟩
          rw [List.filter_append]
          have hsing : (([joinWords (words.drop m)] : List Str).filter
              (fun l => decide (l ≠ []))) = [joinWords (words.drop m)] := by
            simp [hjd_ne]
          rw [hsing]
          have hfilt2 := twoLineBalance_join_filter (words.take m) htkne htwne htcl
          have hAne : (twoLineBalance (words.take m)).filter
              (fun l => decide (l ≠ [])) ≠ [] := by
            intro hcontra
            rw [hcontra] at hfilt2
            exact hjt_ne hfilt2.symm
          rw [joinWords_append_singleton _ _ hAne, hfilt2,
            joinWords_take_drop words m (by omega) hk1, hjoin]
    · have hlbt := (line_break_text_short s (by omega)).2 (by omega)
      rw [← hwdef] at hlbt
      refine ⟨twoLineBalance words, hlbt, ?_⟩
      rw [twoLineBalance_join_filter words hne hwne hcl, hjoin]

theorem claim_C5_witness :
    ∃ ls, line_break_text sampleLen49 = some ls ∧
      joinWords (ls.filter (fun l => decide (l ≠ []))) = sampleLen49 :=
  claim_C5 sampleLen49 (splitOnChar ' ' sampleLen49) rfl (by decide)
    (by decide) (by decide)

/-- A fixed sample card used to instantiate concrete tables. -/
def sampleTrack : Track :=
  { release_date := ⟨1999, 1, 1⟩,
    title := ("T").toList,
    artist := ("A").toList,
    album := ("B").toList,
    album_track := 1,
    track_url := ("u").toList,
    album_url := ("v").toList,
    artist_url := ("w").toList,
    set := ("s").toList,
    set_index := 0 }

/-- C1: in both render modes the card at row-major index `i` sits in
grid row `i div width`; its column is `width − 1 − (i mod width)` in
code (qr) mode and `i mod width` in title mode, and each mode's column
is the exact horizontal mirror of the other's. -/
theorem claim_C1 (t : Table) (i : Nat) (hwpos : 0 < t.width)
    (hi : i < t.cells.length) :
    t.cellIndexQr i = (t.width - 1 - i % t.width, i / t.width) ∧
    t.cellIndexTitle i = (i % t.width, i / t.width) ∧
    (t.cellIndexQr i).2 = (t.cellIndexTitle i).2 ∧
    (t.cellIndexQr i).1 = t.width - 1 - (t.cellIndexTitle i).1 ∧
    (t.cellIndexTitle i).1 = t.width - 1 - (t.cellIndexQr i).1 := by
  refine ⟨rfl, rfl, rfl, rfl, ?_⟩
  have hmod : i % t.width < t.width := Nat.mod_lt i hwpos
  simp only [Table.cellIndexQr, Table.cellIndexTitle]
  omega

theorem claim_C1_witness :
    (Table.mk [sampleTrack] 3 4).cellIndexQr 0 = (2, 0) ∧
    (Table.mk [sampleTrack] 3 4).cellIndexTitle 0 = (0, 0) ∧
    ((Table.mk [sampleTrack] 3 4).cellIndexQr 0).1 =
      3 - 1 - ((Table.mk [sampleTrack] 3 4).cellIndexTitle 0).1 := by
  have h := claim_C1 (Table.mk [sampleTrack] 3 4) 0 (by decide)
    (by simp)
  exact ⟨h.1, h.2.1, h.2.2.2.1⟩

/-! ### Pagination lemmas -/

theorem paginateGo_join (ts : List Track) :
    ∀ tb : Table, ((paginateGo tb ts).map Table.cells).flatten = tb.cells ++ ts := by
  induction ts with
  | nil =>
    intro tb
    rw [paginateGo]
    by_cases h : tb.is_empty
    · have hc : tb.cells = [] := by
        simpa [Table.is_empty] using h
      rw [if_pos h]
      simp [hc]
    · rw [if_neg h]
      simp
  | cons tr rest ih =>
    intro tb
    rw [paginateGo]
    by_cases h : (Table.mk (tb.cells ++ [tr]) tb.width tb.height).is_full
    · rw [if_pos h]
      simp only [List.map_cons, List.flatten_cons]
      rw [ih Table.new]
      simp [Table.new]
    · rw [if_neg h]
      rw [ih (Table.mk (tb.cells ++ [tr]) tb.width tb.height)]
      simp

theorem paginateGo_length (ts : List Track) :
    ∀ tb : Table, tb.width = 3 → tb.height = 4 → tb.cells.length < 12 →
      (paginateGo tb ts).length = (tb.cells.length + ts.length + 11) / 12 := by
  induction ts with
  | nil =>
    intro tb hw hh hlt
    rw [paginateGo]
    by_cases h : tb.is_empty
    · have hc : tb.cells = [] := by simpa [Table.is_empty] using h
      rw [if_pos h]
      simp [hc]
    · have hc : tb.cells.length ≠ 0 := by
        simpa [Table.is_empty] using h
      rw [if_neg h]
      simp only [List.length_singleton, List.length_nil]
      omega
  | cons tr rest ih =>
    intro tb hw hh hlt
    rw [paginateGo]
    by_cases h : (Table.mk (tb.cells ++ [tr]) tb.width tb.height).is_full
    · have hfull : tb.cells.length + 1 = 12 := by
        have h2 := h
        simp only [Table.is_full, hw, hh, decide_eq_true_eq,
          List.length_append, List.length_cons, List.length_nil] at h2
        omega
      rw [if_pos h]
      simp only [List.length_cons]
      rw [ih Table.new rfl rfl (by simp [Table.new])]
      simp only [Table.new, List.length_nil]
      omega
    · have hnot : tb.cells.length + 1 < 12 := by
        have h2 := h
        simp only [Table.is_full, hw, hh, decide_eq_true_eq,
          List.length_append, List.length_cons, List.length_nil] at h2
        omega
      rw [if_neg h]
      rw [ih (Table.mk (tb.cells ++ [tr]) tb.width tb.height) hw hh
        (by simpa using hnot)]
      simp only [List.length_append, List.length_cons, List.length_nil]
      omega

theorem paginateGo_bounds (ts : List Track) :
    ∀ tb : Table, tb.width = 3 → tb.height = 4 → tb.cells.length < 12 →
      ∀ l ∈ paginateGo tb ts, 1 ≤ l.cells.length ∧ l.cells.length ≤ 12 := by
  induction ts with
  | nil =>
    intro tb hw hh hlt l hl
    rw [paginateGo] at hl
    by_cases h : tb.is_empty
    · rw [if_pos h] at hl
      simp at hl
    · have hc : tb.cells.length ≠ 0 := by
        simpa [Table.is_empty] using h
      rw [if_neg h] at hl
      simp only [List.mem_singleton] at hl
      subst hl
      omega
  | cons tr rest ih =>
    intro tb hw hh hlt l hl
    rw [paginateGo] at hl
    by_cases h : (Table.mk (tb.cells ++ [tr]) tb.width tb.height).is_full
    · have hfull : tb.cells.length + 1 = 12 := by
        have h2 := h
        simp only [Table.is_full, hw, hh, decide_eq_true_eq,
          List.length_append, List.length_cons, List.length_nil] at h2
        omega
      rw [if_pos h] at hl
      rcases List.mem_cons.mp hl with hl | hl
      · subst hl
        simp only [List.length_append, List.length_cons, List.length_nil]
        omega
      · exact ih Table.new rfl rfl (by simp [Table.new]) l hl
    · have hnot : tb.cells.length + 1 < 12 := by
        have h2 := h
        simp only [Table.is_full, hw, hh, decide_eq_true_eq,
          List.length_append, List.length_cons, List.length_nil] at h2
        omega
      rw [if_neg h] at hl
      exact ih (Table.mk (tb.cells ++ [tr]) tb.width tb.height) hw hh
        (by simpa using hnot) l hl

theorem paginateGo_full_except_last (ts : List Track) :
    ∀ tb : Table, tb.width = 3 → tb.height = 4 → tb.cells.length < 12 →
      ∀ l ∈ (paginateGo tb ts).dropLast, l.cells.length = 12 := by
  induction ts with
  | nil =>
    intro tb hw hh hlt l hl
    rw [paginateGo] at hl
    by_cases h : tb.is_empty
    · rw [if_pos h] at hl
      simp at hl
    · rw [if_neg h] at hl
      simp [List.dropLast_single] at hl
  | cons tr rest ih =>
    intro tb hw hh hlt l hl
    rw [paginateGo] at hl
    by_cases h : (Table.mk (tb.cells ++ [tr]) tb.width tb.height).is_full
    · have hfull : tb.cells.length + 1 = 12 := by
        have h2 := h
        simp only [Table.is_full, hw, hh, decide_eq_true_eq,
          List.length_append, List.length_cons, List.length_nil] at h2
        omega
      rw [if_pos h] at hl
      cases hrec : paginateGo Table.new rest with
      | nil =>
        rw [hrec] at hl
        simp [List.dropLast_single] at hl
      | cons r rs =>
        rw [hrec] at hl
        rw [List.dropLast_cons₂] at hl
        rcases List.mem_cons.mp hl with hl | hl
        · subst hl
          simp only [List.length_append, List.length_cons, List.length_nil]
          omega
        · have := ih Table.new rfl rfl (by simp [Table.new]) l
          rw [hrec] at this
          exact this hl
    · have hnot : tb.cells.length + 1 < 12 := by
        have h2 := h
        simp only [Table.is_full, hw, hh, decide_eq_true_eq,
          List.length_append, List.length_cons, List.length_nil] at h2
        omega
      rw [if_neg h] at hl
      exact ih (Table.mk (tb.cells ++ [tr]) tb.width tb.height) hw hh
        (by simpa using hnot) l hl

/-- C2: pagination at the fixed capacity 12 = 3 × 4 yields exactly
`ceil(n/12)` tables (none when the input is empty), every table except
possibly the last is exactly full, every emitted table holds between 1
and 12 cards, and concatenating the tables' cells in order reproduces
the input sequence. -/
theorem claim_C2 (cards : List Track) :
    (paginate cards).length = (cards.length + 11) / 12 ∧
    (cards = [] → paginate cards = []) ∧
    (cards ≠ [] → cards.length ≤ (paginate cards).length * 12 ∧
      (paginate cards).length * 12 < cards.length + 12) ∧
    (∀ l ∈ (paginate cards).dropLast, l.cells.length = 12) ∧
    (∀ l ∈ paginate cards, 1 ≤ l.cells.length ∧ l.cells.length ≤ 12) ∧
    ((paginate cards).map Table.cells).flatten = cards := by
  have hnew1 : Table.new.width = 3 := rfl
  have hnew2 : Table.new.height = 4 := rfl
  have hnew3 : Table.new.cells.length < 12 := by simp [Table.new]
  have hlen : (paginate cards).length = (cards.length + 11) / 12 := by
    have h0 := paginateGo_length cards Table.new hnew1 hnew2 hnew3
    rw [paginate, h0]
    norm_num [Table.new]
  refine ⟨hlen, ?_, ?_, ?_, ?_, ?_⟩
  · intro h
    subst h
    rfl
  · intro h
    have hpos : 0 < cards.length := List.length_pos.mpr h
    rw [hlen]
    omega
  · exact paginateGo_full_except_last cards Table.new hnew1 hnew2 hnew3
  · exact paginateGo_bounds cards Table.new hnew1 hnew2 hnew3
  · have := paginateGo_join cards Table.new
    simpa [Table.new] using this

theorem claim_C2_witness :
    (paginate (List.replicate 13 sampleTrack)).length = 2 ∧
    ((List.replicate 13 sampleTrack : List Track).length ≤
        (paginate (List.replicate 13 sampleTrack)).length * 12 ∧
      (paginate (List.replicate 13 sampleTrack)).length * 12 <
        (List.replicate 13 sampleTrack : List Track).length + 12) ∧
    ((paginate (List.replicate 13 sampleTrack)).map Table.cells).flatten =
      List.replicate 13 sampleTrack := by
  have h := claim_C2 (List.replicate 13 sampleTrack)
  refine ⟨?_, h.2.2.1 (by decide), h.2.2.2.2.2⟩
  rw [h.1]
  rfl

/-! ### Normalisation (clean_string) -/

theorem occursIn_nil_pattern (t : Str) : occursIn [] t = true := by
  cases t <;> simp [occursIn, leadsWith]

theorem replaceAllGo_of_not_occurs (p : Str) :
    ∀ t : Str, occursIn p t = false → replaceAllGo p 0 t = t := by
  intro t
  induction t with
  | nil => intro _; rfl
  | cons c cs ih =>
    intro h
    rw [occursIn, Bool.or_eq_false_iff] at h
    rw [replaceAllGo, if_neg (by simp [h.1]), ih h.2]

theorem replaceAll_of_not_occurs (p t : Str) (h : occursIn p t = false) :
    replaceAll p t = t := by
  cases p with
  | nil => rfl
  | cons hd tl => exact replaceAllGo_of_not_occurs (hd :: tl) t h

theorem cleanString_fixed :
    ∀ (P : List Str) (t : Str), (∀ p ∈ P, occursIn p t = false) →
      strip t = t → cleanString t P = t := by
  intro P
  induction P with
  | nil => intro t _ _; rfl
  | cons p ps ih =>
    intro t hocc hstrip
    have hstep : strip (replaceAll p t) = t := by
      rw [replaceAll_of_not_occurs p t (hocc p (by simp)), hstrip]
    rw [cleanString, List.foldl_cons, hstep]
    exact ih t (fun q hq => hocc q (List.mem_cons_of_mem p hq)) hstrip

/-- C6 counterexample: idempotence fails for the pattern list
`["ab"]` on `"aabb"`.  Removing every occurrence of a literal can
create a new occurrence: one application of `clean_string` yields
`"ab"`, a second application yields `""`. -/
theorem claim_C6_counterexample :
    cleanString ("aabb").toList [("ab").toList] = ("ab").toList ∧
    cleanString (cleanString ("aabb").toList [("ab").toList]) [("ab").toList]
      = [] ∧
    cleanString (cleanString ("aabb").toList [("ab").toList]) [("ab").toList]
      ≠ cleanString ("aabb").toList [("ab").toList] := by
  refine ⟨?_, ?_, ?_⟩ <;> decide

/-- C6 (amended): normalisation (over literal patterns) is idempotent
at `s` whenever the once-normalised string contains no occurrence of
any pattern and is whitespace-stripped; in general a removal can create
a fresh occurrence of a pattern (e.g. `"aabb"` with pattern `"ab"`),
and then a second application differs from the first. -/
theorem claim_C6 (s : Str) (P : List Str)
    (hocc : ∀ p ∈ P, occursIn p (cleanString s P) = false)
    (hstrip : strip (cleanString s P) = cleanString s P) :
    cleanString (cleanString s P) P = cleanString s P :=
  cleanString_fixed P (cleanString s P) hocc hstrip

theorem claim_C6_witness :
    cleanString (cleanString ("x (Remastered)").toList
      [(" (Remastered)").toList]) [(" (Remastered)").toList] =
    cleanString ("x (Remastered)").toList [(" (Remastered)").toList] :=
  claim_C6 ("x (Remastered)").toList [(" (Remastered)").toList]
    (by decide) (by decide)

/-! ### Deduplication and selection -/

/-- A record shaped exactly as the fetch pipeline stores it:
`clean_track_data` has deleted the `"set"` key. -/
def recPipeline : TrackData :=
  { set := none,
    sets := [(("setA").toList, 1)],
    release_date := ⟨1999, 1, 1⟩,
    title_clean := ("T").toList,
    title_override := none,
    artist := ("A").toList,
    artist_override := none,
    album_clean := ("B").toList,
    album_override := none,
    album_track := 1,
    track_url := ("u").toList,
    album_url := ("v").toList,
    artist_url := ("w").toList }

/-- A record carrying a legacy `"set"` key that names a set other than
the excluded one, while its `sets` mapping does contain the excluded
set. -/
def recLegacyOther : TrackData := { recPipeline with set := some ("other").toList }

/-- C7 (code bug): building the fuzzy index filters records with
`track["set"] not in skip_if_set`, but (a) records produced by this
repository's own fetch pipeline have no `"set"` key at all, so the
build raises `KeyError` (modelled `none`) although the record's
set-membership intersects the excluded ids, and (b) a record whose
legacy `"set"` field names some other set is silently omitted from the
index even though its `sets` mapping intersects the excluded ids.  The
claim (and spec §4.2) says all records whose set-membership intersects
the excluded ids are scanned and inserted. -/
theorem claim_C7_bug :
    ((recPipeline.sets.map Prod.fst).filter
      (fun x => decide (x ∈ [("setA").toList]))) ≠ [] ∧
    buildIndex true [("setA").toList] [recPipeline] = none ∧
    ((recLegacyOther.sets.map Prod.fst).filter
      (fun x => decide (x ∈ [("setA").toList]))) ≠ [] ∧
    buildIndex true [("setA").toList] [recLegacyOther] = some [] := by
  refine ⟨?_, ?_, ?_, ?_⟩ <;> decide

theorem lookupRec_single (id : Str) (r : TrackData) :
    lookupRec [(id, r)] id = some r := by
  simp [lookupRec, List.find?]

/-- `processLine` on a line that is exactly a bare track id (no `;`
tokens), with no set-name filter: it reduces to the database lookup,
the exact dedup check, and the fuzzy lookup. -/
theorem processLine_plain (set_alias : Option Str) (skip : List Str)
    (index : List ((Str × Str) × List Str)) (db : List (Str × TrackData))
    (idx : Nat) (id : Str)
    (hs : strip id ≠ []) (hh : leadsWith ['#'] id = false)
    (hsp : splitOnChar ';' id = [id]) :
    processLine none set_alias skip index db idx id =
      match lookupRec db id with
      | none => .dbMissing
      | some r =>
        if decide (0 < skip.length) &&
            decide ((r.sets.map Prod.fst).filter
              (fun sid => decide (sid ∈ skip)) ≠ []) then
          .skippedExactDup ((r.sets.map Prod.fst).filter
            (fun sid => decide (sid ∈ skip)))
        else
          match lookupIndex index (r.displayTitle, r.displayArtist) with
          | some conflicts => .skippedFuzzyDup conflicts
          | none => .accepted
              { release_date := r.release_date,
                title := r.displayTitle,
                artist := r.displayArtist,
                album := r.album_override.getD r.album_clean,
                album_track := r.album_track,
                track_url := r.track_url,
                album_url := r.album_url,
                artist_url := r.artist_url,
                set := pyOrStr set_alias [],
                set_index := (idx : Int) } := by
  rw [processLine]
  rw [if_neg (by simp [hs, hh])]
  simp only [hsp]
  rfl

/-- A candidate record with the same display (title, artist) pair as
`recPipeline`/`recLegacyOther` but belonging only to `"setB"`. -/
def recCandidate : TrackData := { recPipeline with sets := [(("setB").toList, 1)] }

/-- A first record whose legacy `"set"` field is the excluded set
itself. -/
def recFuzzyFirst : TrackData := { recPipeline with set := some ("setA").toList }

/-- The card built for `recCandidate` from the bare line `"id2"` with
no alias and index 0. -/
def builtSampleCard : Track :=
  { release_date := ⟨1999, 1, 1⟩,
    title := ("T").toList,
    artist := ("A").toList,
    album := ("B").toList,
    album_track := 1,
    track_url := ("u").toList,
    album_url := ("v").toList,
    artist_url := ("w").toList,
    set := [],
    set_index := 0 }

/-- C8 counterexample: two records share the display pair
`("T", "A")`; the first's set-membership includes the excluded
`"setA"` (its legacy `"set"` field says `"other"`), the second's does
not.  Under fuzzy matching the claim says the second candidate is
excluded — but the index build filters on the `"set"` field, finds no
record, and the candidate is accepted. -/
theorem claim_C8_counterexample :
    recLegacyOther.displayTitle = recCandidate.displayTitle ∧
    recLegacyOther.displayArtist = recCandidate.displayArtist ∧
    ("setA").toList ∈ recLegacyOther.sets.map Prod.fst ∧
    ((recCandidate.sets.map Prod.fst).filter
      (fun x => decide (x ∈ [("setA").toList]))) = [] ∧
    buildIndex true [("setA").toList] [recLegacyOther] = some [] ∧
    processLine none none [("setA").toList] [] [(("id2").toList, recCandidate)]
      0 ("id2").toList = .accepted builtSampleCard := by
  refine ⟨?_, ?_, ?_, ?_, ?_, ?_⟩ <;> decide

/-- C8 (amended): with the extra premise that the first record's legacy
`"set"` field itself names an excluded set (the field the index builder
actually filters on), the claim holds: the second candidate — same
display pair, own set-membership disjoint from the excluded ids — is
skipped by the fuzzy lookup with the conflicting set ids reported
(including the excluded set the first record belongs to), is accepted
when only exact matching is enabled (the index is then empty), and in
both modes any candidate whose own set-membership intersects the
excluded ids is skipped by the exact check, regardless of the index. -/
theorem claim_C8 (r1 r2 : TrackData) (id2 sA : Str) (skip : List Str)
    (h1 : r1.set = some sA) (h2 : sA ∈ skip)
    (h3 : sA ∈ r1.sets.map Prod.fst)
    (h4 : ∀ x ∈ r2.sets.map Prod.fst, x ∉ skip)
    (h5 : r1.displayTitle = r2.displayTitle)
    (h6 : r1.displayArtist = r2.displayArtist)
    (h7 : strip id2 ≠ []) (h8 : leadsWith ['#'] id2 = false)
    (h9 : splitOnChar ';' id2 = [id2]) :
    (∃ index conflicts, buildIndex true skip [r1] = some index ∧
      processLine none none skip index [(id2, r2)] 0 id2 =
        .skippedFuzzyDup conflicts ∧ sA ∈ conflicts) ∧
    (buildIndex false skip [r1] = some [] ∧
      ∃ t, processLine none none skip [] [(id2, r2)] 0 id2 = .accepted t) ∧
    (∀ (r : TrackData) (id : Str) (anyIndex : List ((Str × Str) × List Str)),
      strip id ≠ [] → leadsWith ['#'] id = false → splitOnChar ';' id = [id] →
      (r.sets.map Prod.fst).filter (fun sid => decide (sid ∈ skip)) ≠ [] →
      processLine none none skip anyIndex [(id, r)] 0 id =
        .skippedExactDup ((r.sets.map Prod.fst).filter
          (fun sid => decide (sid ∈ skip)))) := by
  have hskip : 0 < skip.length := List.length_pos.mpr (by
    intro h0
    rw [h0] at h2
    simp at h2)
  have hexact2 : (r2.sets.map Prod.fst).filter (fun sid => decide (sid ∈ skip)) = [] := by
    rw [List.filter_eq_nil_iff]
    intro a ha
    simpa using h4 a ha
  have hfound : ∀ (set_alias : Option Str) (index : List ((Str × Str) × List Str))
      (idx : Nat) (id : Str) (r : TrackData),
      strip id ≠ [] → leadsWith ['#'] id = false → splitOnChar ';' id = [id] →
      processLine none set_alias skip index [(id, r)] idx id =
        if decide (0 < skip.length) &&
            decide ((r.sets.map Prod.fst).filter
              (fun sid => decide (sid ∈ skip)) ≠ []) then
          .skippedExactDup ((r.sets.map Prod.fst).filter
            (fun sid => decide (sid ∈ skip)))
        else
          match lookupIndex index (r.displayTitle, r.displayArtist) with
          | some conflicts => .skippedFuzzyDup conflicts
          | none => .accepted
              { release_date := r.release_date,
                title := r.displayTitle,
                artist := r.displayArtist,
                album := r.album_override.getD r.album_clean,
                album_track := r.album_track,
                track_url := r.track_url,
                album_url := r.album_url,
                artist_url := r.artist_url,
                set := pyOrStr set_alias [],
                set_index := (idx : Int) } := by
    intro set_alias index idx id r hs hh hsp
    rw [processLine_plain set_alias skip index [(id, r)] idx id hs hh hsp,
      lookupRec_single]
  refine ⟨?_, ?_, ?_⟩
  · have hbuild : buildIndex true skip [r1] =
        some [((r1.displayTitle, r1.displayArtist),
          skip.filter (fun x => decide (x ∈ r1.sets.map Prod.fst)))] := by
      rw [buildIndex, if_pos (by simp [hskip]), buildIndexGo, h1]
      exact if_pos h2
    refine ⟨_, skip.filter (fun x => decide (x ∈ r1.sets.map Prod.fst)),
      hbuild, ?_, ?_⟩
    · rw [hfound none _ 0 id2 r2 h7 h8 h9]
      rw [if_neg (by simp [hexact2])]
      have hkey : lookupIndex
          [((r1.displayTitle, r1.displayArtist),
            skip.filter (fun x => decide (x ∈ r1.sets.map Prod.fst)))]
          (r2.displayTitle, r2.displayArtist) =
          some (skip.filter (fun x => decide (x ∈ r1.sets.map Prod.fst))) := by
        rw [lookupIndex, List.find?, h5, h6]
        simp
      rw [hkey]
    · rw [List.mem_filter]
      exact ⟨h2, by simpa using h3⟩
  · constructor
    · rw [buildIndex]
      simp
    · have hrw := hfound none [] 0 id2 r2 h7 h8 h9
      rw [if_neg (by simp [hexact2])] at hrw
      exact ⟨_, hrw⟩
  · intro r id anyIndex hs hh hsp hfne
    rw [hfound none anyIndex 0 id r hs hh hsp]
    exact if_pos (by simp [hskip, hfne])

theorem claim_C8_witness :
    (∃ index conflicts,
      buildIndex true [("setA").toList] [recFuzzyFirst] = some index ∧
      processLine none none [("setA").toList] index
        [(("id2").toList, recCandidate)] 0 ("id2").toList =
          .skippedFuzzyDup conflicts ∧ ("setA").toList ∈ conflicts) ∧
    (buildIndex false [("setA").toList] [recFuzzyFirst] = some [] ∧
      ∃ t, processLine none none [("setA").toList] []
        [(("id2").toList, recCandidate)] 0 ("id2").toList = .accepted t) ∧
    (∀ (r : TrackData) (id : Str) (anyIndex : List ((Str × Str) × List Str)),
      strip id ≠ [] → leadsWith ['#'] id = false → splitOnChar ';' id = [id] →
      (r.sets.map Prod.fst).filter
        (fun sid => decide (sid ∈ [("setA").toList])) ≠ [] →
      processLine none none [("setA").toList] anyIndex [(id, r)] 0 id =
        .skippedExactDup ((r.sets.map Prod.fst).filter
          (fun sid => decide (sid ∈ [("setA").toList])))) :=
  claim_C8 recFuzzyFirst recCandidate ("id2").toList ("setA").toList
    [("setA").toList] (by decide) (by decide) (by decide)
    (by decide) (by decide) (by decide) (by decide) (by decide) (by decide)

/-- C9 (amended): on the fetch path the effective set id resolves by
precedence — the configured `--set-id-override` wins, else the line's
own set token, else the `--set-id` default — and a processed line whose
set id does not resolve outside reprocess mode makes the run exit
immediately with code 1, keeping the database exactly as already
written (tracks fetched from earlier lines of the same run have already
been saved, so the exit does not undo partial writes).  On the render
path there is no override, no default and no fatal error for an
unresolved set id: the line is accepted and the card's set label falls
back to the display alias, else the empty string. -/
theorem claim_C9 :
    (∀ (o d tok : Option Str) (x : Str), o = some x →
      resolveTrackSet o d tok = some x) ∧
    (∀ (d : Option Str) (y : Str), resolveTrackSet none d (some y) = some y) ∧
    (∀ (d : Option Str), resolveTrackSet none d none = d) ∧
    (∀ (o d : Option Str) (frc : Bool) (fOk : Str → Bool) (db : List Str)
        (idx : Nat) (line : Str) (rest : List Str),
      strip line ≠ [] → leadsWith ['#'] line = false →
      resolveTrackSet o d ((splitOnChar ';' line).get? 1) = none →
      fetchLoop o d false frc fOk db idx (line :: rest) = ([], some 1, db)) ∧
    (∀ (set_alias : Option Str) (r : TrackData) (id : Str) (idx : Nat),
      strip id ≠ [] → leadsWith ['#'] id = false → splitOnChar ';' id = [id] →
      processLine none set_alias [] [] [(id, r)] idx id =
        .accepted
          { release_date := r.release_date,
            title := r.displayTitle,
            artist := r.displayArtist,
            album := r.album_override.getD r.album_clean,
            album_track := r.album_track,
            track_url := r.track_url,
            album_url := r.album_url,
            artist_url := r.artist_url,
            set := pyOrStr set_alias [],
            set_index := (idx : Int) }) := by
  refine ⟨?_, ?_, ?_, ?_, ?_⟩
  · intro o d tok x h
    subst h
    rfl
  · intro d y
    rfl
  · intro d
    rfl
  · intro o d frc fOk db idx line rest hs hh hres
    have hres2 : resolveTrackSet o d ((splitOnChar ';' line)[1]?) = none := by
      simpa using hres
    rw [fetchLoop]
    rw [if_neg (by simp [hs, hh])]
    cases htok : (splitOnChar ';' line).get? 2 with
    | none =>
      simp only [htok]
      rw [if_pos (by simp [hres2])]
    | some tok =>
      simp only [htok]
      cases hint : pyIntOpt tok with
      | none => rfl
      | some v =>
        simp only [hint]
        rw [if_pos (by simp [hres2])]
  · intro set_alias r id idx hs hh hsp
    rw [processLine_plain set_alias [] [] [(id, r)] idx id hs hh hsp,
      lookupRec_single]
    rfl

/-- A fetch run over the two lines `"id1;setA"` and `"id2"` with no
override and no default: the first track is fetched and saved, then the
second line's unresolved set id aborts the run with exit code 1 — after
the first save has already happened (no-partial-writes is violated).
And on the render path, processing the bare line `"id2"` raises no
configuration error at all: the track is accepted with an empty set
label. -/
theorem claim_C9_counterexample :
    fetchLoop none none false false (fun _ => true) [] 0
        [("id1;setA").toList, ("id2").toList] =
      ([.saved ("id1").toList ("setA").toList], some 1, [("id1").toList]) ∧
    (fetchLoop none none false false (fun _ => true) [] 0
        [("id1;setA").toList, ("id2").toList]).1 ≠ [] ∧
    (splitOnChar ';' ("id2").toList).get? 1 = none ∧
    processLine none none [] [] [(("id2").toList, recPipeline)] 0
        ("id2").toList = .accepted builtSampleCard := by
  refine ⟨?_, ?_, ?_, ?_⟩ <;> decide

theorem claim_C9_witness :
    resolveTrackSet (some ("o").toList) (some ("d").toList)
      (some ("t").toList) = some ("o").toList ∧
    fetchLoop none none false false (fun _ => true) [("x").toList] 3
      [("id9").toList] = ([], some 1, [("x").toList]) ∧
    processLine none (some ("alias").toList) [] []
      [(("id9").toList, recPipeline)] 7 ("id9").toList =
        .accepted
          { release_date := recPipeline.release_date,
            title := recPipeline.displayTitle,
            artist := recPipeline.displayArtist,
            album := recPipeline.album_override.getD recPipeline.album_clean,
            album_track := recPipeline.album_track,
            track_url := recPipeline.track_url,
            album_url := recPipeline.album_url,
            artist_url := recPipeline.artist_url,
            set := pyOrStr (some ("alias").toList) [],
            set_index := (7 : Int) } :=
  ⟨claim_C9.1 (some ("o").toList) (some ("d").toList) (some ("t").toList)
      ("o").toList rfl,
    claim_C9.2.2.2.1 none none false (fun _ => true) [("x").toList] 3
      ("id9").toList [] (by decide) (by decide) (by decide),
    claim_C9.2.2.2.2 (some ("alias").toList) recPipeline ("id9").toList 7
      (by decide) (by decide) (by decide)⟩
